import Mathlib

/-!
# Verification of the TMP semantic tool-discovery engine

A shallow embedding of the vector-index / search core of the repository
(`app/tmp_embeddings.py` and the search endpoint of `app/tmp_routes.py`),
together with proofs about the properties stated in the specification.

Modelling conventions:
* Scores and vector components are rationals (`ℚ`).  The similarity
  pipeline only compares, maximises, rounds and sorts scores, so exact
  rational arithmetic captures the algorithmic content; floating-point
  representation issues are outside the model.
* The embedding provider (`compute_embedding` / `compute_embeddings_batch`)
  is opaque in the source (a pluggable local model or remote API).  It is
  modelled as a parameter `embed : String → Except Unit (List ℚ)`, where
  `.error` models a raised exception.  The subsequent `faiss.normalize_L2`
  is a per-vector scaling by the (irrational) reciprocal norm; it is
  absorbed into the `embed` parameter, which therefore maps a text to the
  vector *as stored / as queried*.  No claim under verification depends on
  the magnitude of the vectors.
* Python's `dict` (used for per-tool deduplication) is modelled as an
  association list: assignment to an existing key replaces the value in
  place, assignment to a fresh key appends, `dict.values()` iterates in
  insertion order.
* Python's `sorted(..., key=..., reverse=True)` is a stable descending
  sort; it is modelled by `List.insertionSort` with the reflexive total
  relation `entryGE` (Mathlib's insertion sort is stable in exactly the
  same sense: an element is placed before its ties that were inserted
  earlier, i.e. the later elements of the original list).
* `round(x, 4)` is Python's round-half-to-even at 4 decimal places,
  modelled exactly on `ℚ` by `round4`.
* FAISS `IndexFlatIP.search` with `k ≤ ntotal` returns the `k`
  (score, position) pairs with largest inner product, scores descending,
  ties by insertion position, and throws if `k ≤ 0`; it is modelled by
  `faissTopK` and the `search_k = 0` error branch.  Since the engine
  always passes `k = min(ntotal, top_k*10) ≤ ntotal`, the `idx < 0`
  guard of the source loop is unreachable and is modelled by the
  (equally unreachable) out-of-range lookup returning `none`.
-/

deriving instance DecidableEq for Except

set_option maxRecDepth 10000

namespace TMP

open List

/-! ## Python `round(·, 4)`: round half to even, at 4 decimal places -/

/-- Round a rational to the nearest integer, halves to the even integer
(Python's `round` on a number that is exactly representable). -/
def roundHalfEven (q : ℚ) : ℤ :=
  if q - ⌊q⌋ < 1/2 then ⌊q⌋
  else if (1:ℚ)/2 < q - ⌊q⌋ then ⌊q⌋ + 1
  else if ⌊q⌋ % 2 = 0 then ⌊q⌋ else ⌊q⌋ + 1

/-- Python's `round(score, 4)`. -/
def round4 (q : ℚ) : ℚ := (roundHalfEven (q * 10000) : ℚ) / 10000

/-! ## Data model

`Tool` is the tool record as read from the catalogue, with exactly the
keys that `FAISSToolIndex.build` copies into each per-representation
metadata dict (`name, description, parameters, category, tags, examples,
endpoint, method`).  `parameters` is opaque pass-through metadata that the
core never inspects, so it is modelled as an opaque string field. -/

structure Tool where
  name : String
  description : String
  parameters : Option String
  category : Option String
  tags : Option (List String)
  examples : Option (List String)
  endpoint : Option String
  method : Option String
deriving DecidableEq

/-- One entry of the deduplicated search result:
`{**tool_meta, "score": round(score, 4)}`. -/
structure SearchEntry where
  meta : Tool
  score : ℚ
deriving DecidableEq

/-! ## Building the index (`FAISSToolIndex.build`) -/

/-- The description representation of a tool:
`f"{name}: {description}"`, plus `f" [{', '.join(tags)}]"` when `tags` is
truthy (present and non-empty). -/
def descText (t : Tool) : String :=
  let base := t.name ++ ": " ++ t.description
  match t.tags with
  | none => base
  | some ts => if ts = [] then base else base ++ " [" ++ String.intercalate ", " ts ++ "]"

/-- The (text, metadata) representation pairs one tool contributes:
its description representation followed by one representation per entry of
`examples` (`tool.get("examples") or []`). -/
def toolReprs (t : Tool) : List (String × Tool) :=
  (descText t, t) :: (t.examples.getD []).map (fun e => (e, t))

/-- `all_texts` / `all_mappings` over the whole catalogue, zipped. -/
def allReprs (tools : List Tool) : List (String × Tool) :=
  tools.flatMap toolReprs

/-- The FAISS index together with its parallel metadata array.
`built` is `self._built`; in every reachable state `self.index is None`
exactly when `built = false`, so the `or self.index is None` disjunct of
the source's search guard is subsumed. -/
structure FAISSToolIndex where
  vecs : List (List ℚ)
  index_to_tool : List Tool
  tool_count : ℕ
  built : Bool
deriving DecidableEq

/-- A freshly constructed `FAISSToolIndex()`. -/
def emptyIndex : FAISSToolIndex :=
  { vecs := [], index_to_tool := [], tool_count := 0, built := false }

/-- `self.index.ntotal if self.index else 0`. -/
def FAISSToolIndex.total_vectors (idx : FAISSToolIndex) : ℕ := idx.vecs.length

/-- `compute_embeddings_batch`: one vector per text, in order; a raised
provider exception aborts the whole batch (`.error`). -/
def embedBatch (embed : String → Except Unit (List ℚ)) : List String →
    Except Unit (List (List ℚ))
  | [] => .ok []
  | s :: ss =>
    match embed s with
    | .error e => .error e
    | .ok v =>
        match embedBatch embed ss with
        | .error e => .error e
        | .ok vs => .ok (v :: vs)

/-- `FAISSToolIndex.build`.  The method mutates `self` in place, but every
assignment to `self` happens after the embedding batch has been computed,
so a raised embedding exception (`.error`) leaves the object in its prior
state; the caller (`rebuild_faiss_index`) only ever calls `build` on a
fresh object.  `build` on an empty representation list returns early
without setting `_built`. -/
def FAISSToolIndex.build (embed : String → Except Unit (List ℚ)) (tools : List Tool) :
    Except Unit FAISSToolIndex :=
  let reprs := allReprs tools
  if reprs.isEmpty then .ok emptyIndex
  else
    match embedBatch embed (reprs.map Prod.fst) with
    | .error e => .error e
    | .ok vecs =>
        .ok { vecs := vecs
              index_to_tool := reprs.map Prod.snd
              tool_count := tools.length
              built := true }

/-- `rebuild_faiss_index()`: the module-level global `_faiss_index` is
first replaced by a *fresh* `FAISSToolIndex()`, and only then is `build`
called on it (and only when the catalogue is non-empty).  The function
returns the pair (new value of the global, returned-or-raised result).
Note that the previous index (`current`) is discarded unconditionally,
before the build is attempted. -/
def rebuild_faiss_index (embed : String → Except Unit (List ℚ)) (tools : List Tool)
    (current : FAISSToolIndex) : FAISSToolIndex × Except Unit FAISSToolIndex :=
  let _ := current
  if tools.isEmpty then (emptyIndex, .ok emptyIndex)
  else
    match FAISSToolIndex.build embed tools with
    | .ok idx => (idx, .ok idx)
    | .error e => (emptyIndex, .error e)

/-! ## Searching (`FAISSToolIndex.search`) -/

/-- Inner product of two stored vectors (FAISS `IndexFlatIP`). -/
def dot (a b : List ℚ) : ℚ := (List.zipWith (· * ·) a b).sum

/-- Ordering of raw FAISS hits: score descending, ties by ascending index
position (stable original insertion order). -/
def hitGE (a b : ℚ × ℕ) : Prop := b.1 < a.1 ∨ (a.1 = b.1 ∧ a.2 ≤ b.2)

instance : DecidableRel hitGE := fun a b => by unfold hitGE; infer_instance

instance : IsTotal (ℚ × ℕ) hitGE :=
  ⟨fun a b => by
    unfold hitGE
    rcases lt_trichotomy a.1 b.1 with h | h | h
    · exact Or.inr (Or.inl h)
    · rcases Nat.le_total a.2 b.2 with h2 | h2
      · exact Or.inl (Or.inr ⟨h, h2⟩)
      · exact Or.inr (Or.inr ⟨h.symm, h2⟩)
    · exact Or.inl (Or.inl h)⟩

instance : IsTrans (ℚ × ℕ) hitGE :=
  ⟨fun a b c hab hbc => by
    unfold hitGE at *
    rcases hab with h1 | ⟨h1, h1'⟩ <;> rcases hbc with h2 | ⟨h2, h2'⟩
    · exact Or.inl (h2.trans h1)
    · exact Or.inl (h2 ▸ h1)
    · exact Or.inl (h1 ▸ h2)
    · exact Or.inr ⟨h1.trans h2, le_trans h1' h2'⟩⟩

/-- Exact top-`k` inner-product search of `IndexFlatIP` over the stored
vectors: all (score, position) pairs, sorted by score descending with ties
in insertion order, truncated to `k`. -/
def faissTopK (vecs : List (List ℚ)) (qv : List ℚ) (k : ℕ) : List (ℚ × ℕ) :=
  (List.insertionSort hitGE ((vecs.enum).map (fun p => (dot qv p.2, p.1)))).take k

/-- `cat_lower = category.lower() if category else None` (the empty string
is falsy in Python). -/
def normCat (category : Option String) : Option String :=
  match category with
  | none => none
  | some c => if c = "" then none else some c.toLower

/-- The category-filter rejection test of the search loop:
`cat_lower and (tool_meta.get("category") or "").lower() != cat_lower`. -/
def catRejects (catLower : Option String) (meta : Tool) : Bool :=
  match catLower with
  | none => false
  | some c => if c = "" then false else decide ((meta.category.getD "").toLower ≠ c)

/-- `seen.get(name)` on the insertion-ordered dict. -/
def lookupName (seen : List (String × SearchEntry)) (n : String) : Option SearchEntry :=
  match seen with
  | [] => none
  | (k, v) :: t => if k = n then some v else lookupName t n

/-- `seen[name] = e`: replace in place if the key exists, else append
(Python dicts preserve the original insertion position on overwrite). -/
def dictSet (seen : List (String × SearchEntry)) (n : String) (e : SearchEntry) :
    List (String × SearchEntry) :=
  match seen with
  | [] => [(n, e)]
  | (k, v) :: t => if k = n then (k, e) :: t else (k, v) :: dictSet t n e

/-- One iteration of the deduplication loop over the raw hits. -/
def dedupStep (itt : List Tool) (threshold : ℚ) (catLower : Option String)
    (seen : List (String × SearchEntry)) (hit : ℚ × ℕ) : List (String × SearchEntry) :=
  if hit.1 < threshold then seen
  else
    match itt[hit.2]? with
    | none => seen
    | some meta =>
        if catRejects catLower meta then seen
        else
          match lookupName seen meta.name with
          | none => dictSet seen meta.name ⟨meta, round4 hit.1⟩
          | some e => if e.score < hit.1 then dictSet seen meta.name ⟨meta, round4 hit.1⟩ else seen

/-- The full deduplication loop: `seen` keyed by tool name, keeping the
highest score per name (comparison against the stored *rounded* score). -/
def dedupHits (itt : List Tool) (threshold : ℚ) (catLower : Option String)
    (hits : List (ℚ × ℕ)) : List (String × SearchEntry) :=
  hits.foldl (dedupStep itt threshold catLower) []

/-- Final ranking order: by stored (rounded) score, descending; a stable
sort, so ties keep dict insertion order. -/
def entryGE (a b : SearchEntry) : Prop := b.score ≤ a.score

instance : DecidableRel entryGE := fun a b => by unfold entryGE; infer_instance

instance : IsTotal SearchEntry entryGE := ⟨fun a b => le_total b.score a.score⟩

instance : IsTrans SearchEntry entryGE := ⟨fun _ _ _ h1 h2 => le_trans h2 h1⟩

/-- The search pipeline after the query has been embedded: top-K raw
lookup, thresholding, category filter, per-name deduplication, stable
descending sort, truncation to `top_k`. -/
def searchPost (idx : FAISSToolIndex) (qv : List ℚ) (top_k : ℕ) (threshold : ℚ)
    (catLower : Option String) : List SearchEntry :=
  let search_k := min idx.vecs.length (top_k * 10)
  let hits := faissTopK idx.vecs qv search_k
  let seen := dedupHits idx.index_to_tool threshold catLower hits
  (List.insertionSort entryGE (seen.map Prod.snd)).take top_k

/-- `FAISSToolIndex.search`.  `top_k` is modelled as a natural number (the
HTTP layer clamps it from above; FAISS raises on `k ≤ 0`, the
`search_k = 0` branch).  An `.error` of `embed` propagates. -/
def FAISSToolIndex.search (embed : String → Except Unit (List ℚ)) (idx : FAISSToolIndex)
    (query : String) (top_k : ℕ) (threshold : ℚ) (category : Option String) :
    Except Unit (List SearchEntry) :=
  if idx.built = false then .ok []
  else
    match embed query with
    | .error e => .error e
    | .ok qv =>
        if min idx.vecs.length (top_k * 10) = 0 then .error ()
        else .ok (searchPost idx qv top_k threshold (normCat category))

/-! ## Derived notions used to state the claims

These definitions do not model further source code; they name the
qualifying hits (threshold and category filters applied), the best raw
score per tool name, and the first-occurrence order of names, in terms of
which the behaviour of the deduplication loop is characterised. -/

/-- The metadata of a raw hit, if the hit passes the threshold and the
category filter (the two `continue` guards of the dedup loop). -/
def qualMeta (itt : List Tool) (threshold : ℚ) (catLower : Option String)
    (h : ℚ × ℕ) : Option Tool :=
  if h.1 < threshold then none
  else
    match itt[h.2]? with
    | none => none
    | some meta => if catRejects catLower meta then none else some meta

/-- The qualifying raw hits, as (raw score, metadata) pairs in hit order. -/
def qualHits (itt : List Tool) (threshold : ℚ) (catLower : Option String)
    (hits : List (ℚ × ℕ)) : List (ℚ × Tool) :=
  hits.filterMap (fun h => (qualMeta itt threshold catLower h).map (fun m => (h.1, m)))

/-- The names of the qualifying raw hits, in hit order. -/
def qualNames (itt : List Tool) (threshold : ℚ) (catLower : Option String)
    (hits : List (ℚ × ℕ)) : List String :=
  (qualHits itt threshold catLower hits).map (fun p => p.2.name)

/-- The qualifying hits that carry a given tool name. -/
def qualPairsFor (itt : List Tool) (threshold : ℚ) (catLower : Option String)
    (hits : List (ℚ × ℕ)) (n : String) : List (ℚ × Tool) :=
  (qualHits itt threshold catLower hits).filter (fun p => p.2.name = n)

/-- The raw scores of the qualifying hits that carry a given tool name. -/
def qualScoresFor (itt : List Tool) (threshold : ℚ) (catLower : Option String)
    (hits : List (ℚ × ℕ)) (n : String) : List ℚ :=
  (qualPairsFor itt threshold catLower hits n).map Prod.fst

/-- How the dict entry of one name evolves along that name's qualifying
hits: first hit stored (rounded), later hits replace the stored entry
when their raw score beats the stored rounded score. -/
def updBest (acc : Option SearchEntry) (p : ℚ × Tool) : Option SearchEntry :=
  match acc with
  | none => some ⟨p.2, round4 p.1⟩
  | some e => if e.score < p.1 then some ⟨p.2, round4 p.1⟩ else some e

/-- Maximum of a list of rationals (`none` on the empty list). -/
def maxQ : List ℚ → Option ℚ
  | [] => none
  | r :: rs => some (rs.foldl max r)

/-- The best (maximal) qualifying raw score of a tool name. -/
def bestQual (itt : List Tool) (threshold : ℚ) (catLower : Option String)
    (hits : List (ℚ × ℕ)) (n : String) : Option ℚ :=
  maxQ (qualScoresFor itt threshold catLower hits n)

/-- First-occurrence deduplication of a list of names: the order in which
a dict keyed by these names acquires its keys. -/
def firstOcc : List String → List String
  | [] => []
  | n :: l => n :: firstOcc (l.filter (fun x => x ≠ n))
termination_by l => l.length
decreasing_by
  simp only [List.length_cons]
  exact Nat.lt_succ_of_le (List.length_filter_le _ _)

/-- The tool names of a list of (score, metadata) pairs, in order. -/
def pairNames (L : List (ℚ × Tool)) : List String := L.map (fun p => p.2.name)

/-- Whether some pair of `L` carries name `n` with score at least `T2`. -/
def survB (T2 : ℚ) (L : List (ℚ × Tool)) (n : String) : Bool :=
  L.any (fun p => decide (p.2.name = n) && decide (T2 ≤ p.1))

/-- The raw hit list a search works on (the `search_k` top hits). -/
def rawHits (idx : FAISSToolIndex) (qv : List ℚ) (top_k : ℕ) : List (ℚ × ℕ) :=
  faissTopK idx.vecs qv (min idx.vecs.length (top_k * 10))

/-- Whether a tool name has a qualifying hit at a (higher) threshold
`t2` — i.e. whether it survives raising the threshold. -/
def survivesAt (itt : List Tool) (t2 : ℚ) (catLower : Option String)
    (hits : List (ℚ × ℕ)) (n : String) : Bool :=
  !(qualScoresFor itt t2 catLower hits n).isEmpty

/-! ## The search endpoint (`tmp_search` in `app/tmp_routes.py`)

The endpoint-level model keeps exactly the control flow that the claims
are about: input validation, lazy build, the empty-state message, and the
success/error shape of the response.  The per-entry enrichment
(`required`/`optional` split and `sample_url`) mutates each returned dict
in place and changes neither the list of tools, their order, their count
nor their scores, so it is not modelled. -/

/-- The JSON response of `POST /tmp/search`, restricted to the fields the
claims mention.  `inputError` is the 400 response, `serverError` the 500
response produced by the blanket `except` handler. -/
inductive TmpResponse where
  | ok (tools : List SearchEntry) (count : ℕ) (message : Option String)
  | inputError (msg : String)
  | serverError
deriving DecidableEq

/-- The parsed request parameters, after defaults
(`top_k` default 5, `threshold` default 0.15, `category` default `""`). -/
structure SearchRequest where
  query : String
  top_k : ℕ
  threshold : ℚ
  category : String
deriving DecidableEq

/-- The explanatory empty-state message of the endpoint. -/
def noToolsMsg : String :=
  "No tools registered yet. Use POST /tmp/tools or /tmp/reindex to add tools."

def missingQueryMsg : String := "Missing 'query' parameter"

/-- The tail of the `tmp_search` handler, once an index `idx` is at hand
(`st'` is the global index after the optional lazy rebuild): the
empty-state message when no index was built, otherwise the engine search
with `top_k` clamped to 20 and blank `category` normalised to null. -/
def tmpServe (embed : String → Except Unit (List ℚ)) (st' idx : FAISSToolIndex)
    (req : SearchRequest) : FAISSToolIndex × TmpResponse :=
  if idx.built = false then (st', .ok [] 0 (some noToolsMsg))
  else
    match idx.search embed req.query.trim (min req.top_k 20) req.threshold
        (if req.category.trim = "" then none else some req.category.trim) with
    | .error _ => (st', .serverError)
    | .ok results => (st', .ok results results.length none)

/-- The `tmp_search` handler.  `st` is the current global index,
`tools_db` the catalogue rows a lazy rebuild would read; the returned pair
is (new global index, HTTP response).  A blank query is rejected before
the index is touched or the provider called; an unbuilt index triggers a
lazy rebuild first. -/
def tmp_search (embed : String → Except Unit (List ℚ)) (st : FAISSToolIndex)
    (tools_db : List Tool) (req : SearchRequest) : FAISSToolIndex × TmpResponse :=
  if req.query.trim = "" then (st, .inputError missingQueryMsg)
  else if st.built then tmpServe embed st st req
  else
    match rebuild_faiss_index embed tools_db st with
    | (st', .error _) => (st', .serverError)
    | (st', .ok idx) => tmpServe embed st' idx req

/-! ## Concrete instances (used by witnesses and counterexamples) -/

/-- An embedding provider that always raises. -/
def embedFail : String → Except Unit (List ℚ) := fun _ => .error ()

/-- A 1-dimensional embedding provider mapping every text to `[1]`. -/
def embedOne : String → Except Unit (List ℚ) := fun _ => .ok [1]

def toolA : Tool :=
  { name := "trade", description := "execute a trade", parameters := none,
    category := some "Trading", tags := none, examples := some ["buy EURUSD"],
    endpoint := none, method := none }

def toolB : Tool :=
  { name := "get_balance", description := "account balance", parameters := none,
    category := some "account", tags := none, examples := none,
    endpoint := none, method := none }

/-- A built one-tool index whose single stored vector gives the query
vector `[1]` the raw score `0.12347` (more than 4 decimal places). -/
def idxC : FAISSToolIndex :=
  { vecs := [[mkRat 12347 100000]], index_to_tool := [toolB],
    tool_count := 1, built := true }

/-- A built one-tool index with score 1 for query vector `[1]`, whose
tool carries category `"Trading"`. -/
def idxA : FAISSToolIndex :=
  { vecs := [[1]], index_to_tool := [toolA], tool_count := 1, built := true }

/-- The index `FAISSToolIndex.build embedOne [toolA, toolB]` produces. -/
def idxBuiltAB : FAISSToolIndex :=
  { vecs := [[1], [1], [1]], index_to_tool := [toolA, toolA, toolB],
    tool_count := 2, built := true }

/-- Request with a blank (whitespace) query. -/
def reqBlank : SearchRequest := { query := "  ", top_k := 5, threshold := mkRat 3 20, category := "" }

/-- Request with an out-of-range threshold (5 is outside `[0, 1]`). -/
def reqBadThreshold : SearchRequest := { query := "hello", top_k := 5, threshold := 5, category := "" }

/-- A well-formed request. -/
def reqOk : SearchRequest := { query := "hello", top_k := 5, threshold := mkRat 3 20, category := "" }

/-- `TmpResponse` discriminator for the 400 input-error shape. -/
def TmpResponse.isInputError : TmpResponse → Bool
  | .inputError _ => true
  | _ => false

/-! ## Lemmas about Python rounding -/

theorem toLower_empty : "".toLower = "" := by with_unfolding_all decide

theorem roundHalfEven_mono {a b : ℚ} (hab : a ≤ b) : roundHalfEven a ≤ roundHalfEven b := by
  unfold roundHalfEven
  have hf : ⌊a⌋ ≤ ⌊b⌋ := Int.floor_le_floor hab
  rcases lt_or_eq_of_le hf with hlt | heq
  · have h1 : ⌊a⌋ + 1 ≤ ⌊b⌋ := hlt
    split_ifs <;> omega
  · rw [← heq]
    have hfr : a - ⌊a⌋ ≤ b - ⌊a⌋ := by linarith
    split_ifs <;> first | omega | linarith

theorem roundHalfEven_intCast (n : ℤ) : roundHalfEven (n : ℚ) = n := by
  unfold roundHalfEven
  rw [Int.floor_intCast]
  norm_num

theorem round4_mono {a b : ℚ} (hab : a ≤ b) : round4 a ≤ round4 b := by
  unfold round4
  have h : roundHalfEven (a * 10000) ≤ roundHalfEven (b * 10000) :=
    roundHalfEven_mono (by linarith)
  have h' : ((roundHalfEven (a * 10000) : ℤ) : ℚ) ≤ ((roundHalfEven (b * 10000) : ℤ) : ℚ) := by
    exact_mod_cast h
  linarith

theorem round4_round4 (q : ℚ) : round4 (round4 q) = round4 q := by
  unfold round4
  rw [div_mul_cancel₀]
  · rw [roundHalfEven_intCast]
  · norm_num

/-- If `r` lies between `m` and `round4 m` from below, the two round
to the same value. -/
theorem round4_eq_left {m r : ℚ} (h1 : m ≤ r) (h2 : r ≤ round4 m) : round4 r = round4 m :=
  le_antisymm
    (by calc round4 r ≤ round4 (round4 m) := round4_mono h2
          _ = round4 m := round4_round4 m)
    (round4_mono h1)

/-- If `r` lies between `round4 m` and `m` from above, the two round
to the same value. -/
theorem round4_eq_right {m r : ℚ} (h1 : round4 m < r) (h2 : r ≤ m) : round4 r = round4 m :=
  le_antisymm (round4_mono h2)
    (by calc round4 m = round4 (round4 m) := (round4_round4 m).symm
          _ ≤ round4 r := round4_mono h1.le)

/-! ## Lemmas: first-occurrence deduplication of key lists -/

theorem firstOcc_filter : ∀ (l : List String) (p : String → Bool),
    firstOcc (l.filter p) = (firstOcc l).filter p
  | [], _ => by simp [firstOcc]
  | n :: l, p => by
    by_cases hp : p n
    · rw [List.filter_cons_of_pos hp, firstOcc, firstOcc, List.filter_cons_of_pos hp]
      have hcomm : (l.filter p).filter (fun x => x ≠ n) = (l.filter (fun x => x ≠ n)).filter p := by
        rw [List.filter_filter, List.filter_filter]
        exact List.filter_congr (fun x _ => by rw [Bool.and_comm])
      rw [hcomm, firstOcc_filter (l.filter (fun x => x ≠ n)) p]
    · rw [List.filter_cons_of_neg hp, firstOcc, List.filter_cons_of_neg hp,
        ← firstOcc_filter (l.filter (fun x => x ≠ n)) p]
      refine congrArg _ ?_
      rw [List.filter_filter]
      refine List.filter_congr (fun x _ => ?_)
      by_cases hx : x = n
      · subst hx; simp [hp]
      · simp [hx]
termination_by l _ => l.length
decreasing_by
  all_goals
    simp only [List.length_cons]
    exact Nat.lt_succ_of_le (List.length_filter_le _ _)

theorem mem_firstOcc : ∀ (l : List String) (x : String), x ∈ firstOcc l ↔ x ∈ l
  | [], x => by simp [firstOcc]
  | n :: l, x => by
    rw [firstOcc]
    by_cases hx : x = n
    · subst hx; simp
    · simp only [List.mem_cons, hx, false_or]
      rw [mem_firstOcc (l.filter (fun y => y ≠ n)) x]
      simp [hx]
termination_by l _ => l.length
decreasing_by
  simp only [List.length_cons]
  exact Nat.lt_succ_of_le (List.length_filter_le _ _)

theorem nodup_firstOcc : ∀ (l : List String), (firstOcc l).Nodup
  | [] => by simp [firstOcc]
  | n :: l => by
    rw [firstOcc]
    refine List.Nodup.cons ?_ (nodup_firstOcc (l.filter (fun x => x ≠ n)))
    intro hmem
    rw [mem_firstOcc] at hmem
    simp at hmem
termination_by l => l.length
decreasing_by
  simp only [List.length_cons]
  exact Nat.lt_succ_of_le (List.length_filter_le _ _)

/-! ## Lemmas: the insertion-ordered dict -/

theorem lookupName_eq_none {seen : List (String × SearchEntry)} {n : String} :
    lookupName seen n = none ↔ n ∉ seen.map Prod.fst := by
  induction seen with
  | nil => simp [lookupName]
  | cons p t ih =>
    obtain ⟨k, v⟩ := p
    by_cases hk : k = n
    · subst hk; simp [lookupName]
    · rw [lookupName, if_neg hk]
      simp only [List.map_cons, List.mem_cons, ih]
      constructor
      · rintro h (h1 | h1)
        · exact hk h1.symm
        · exact h h1
      · intro h h1
        exact h (Or.inr h1)

theorem lookupName_dictSet_self (seen : List (String × SearchEntry)) (n : String)
    (e : SearchEntry) : lookupName (dictSet seen n e) n = some e := by
  induction seen with
  | nil => simp [dictSet, lookupName]
  | cons p t ih =>
    obtain ⟨k, v⟩ := p
    rw [dictSet]
    by_cases hk : k = n
    · simp [hk, lookupName]
    · simp only [hk, if_false]
      rw [lookupName, if_neg hk]
      exact ih

theorem lookupName_dictSet_ne (seen : List (String × SearchEntry)) {n m : String}
    (e : SearchEntry) (hnm : m ≠ n) : lookupName (dictSet seen n e) m = lookupName seen m := by
  have hne : ¬n = m := fun h => hnm h.symm
  induction seen with
  | nil =>
    show lookupName [(n, e)] m = lookupName [] m
    simp only [lookupName]
    rw [if_neg hne]
  | cons p t ih =>
    obtain ⟨k, v⟩ := p
    rw [dictSet]
    by_cases hk : k = n
    · subst hk
      rw [if_pos rfl, lookupName, lookupName, if_neg hne, if_neg hne]
    · rw [if_neg hk, lookupName, lookupName]
      by_cases hkm : k = m
      · rw [if_pos hkm, if_pos hkm]
      · rw [if_neg hkm, if_neg hkm]
        exact ih

theorem dictSet_map_fst_of_mem {seen : List (String × SearchEntry)} {n : String}
    (e : SearchEntry) (h : n ∈ seen.map Prod.fst) :
    (dictSet seen n e).map Prod.fst = seen.map Prod.fst := by
  induction seen with
  | nil => simp at h
  | cons p t ih =>
    obtain ⟨k, v⟩ := p
    rw [dictSet]
    by_cases hk : k = n
    · simp [hk]
    · simp only [hk, if_false, List.map_cons]
      simp only [List.map_cons] at h
      rcases List.mem_cons.mp h with h1 | h1
      · exact absurd h1.symm hk
      · rw [ih h1]

theorem dictSet_map_fst_of_not_mem {seen : List (String × SearchEntry)} {n : String}
    (e : SearchEntry) (h : n ∉ seen.map Prod.fst) :
    (dictSet seen n e).map Prod.fst = seen.map Prod.fst ++ [n] := by
  induction seen with
  | nil => simp [dictSet]
  | cons p t ih =>
    obtain ⟨k, v⟩ := p
    rw [dictSet]
    simp only [List.map_cons, List.mem_cons] at h
    push_neg at h
    rw [if_neg (fun hh => h.1 hh.symm)]
    simp only [List.map_cons, List.cons_append]
    rw [ih h.2]

theorem mem_dictSet {seen : List (String × SearchEntry)} {n : String} {e : SearchEntry}
    {p : String × SearchEntry} (h : p ∈ dictSet seen n e) : p ∈ seen ∨ p = (n, e) := by
  induction seen with
  | nil =>
    rw [dictSet] at h
    exact Or.inr (List.mem_singleton.mp h)
  | cons q t ih =>
    obtain ⟨k, v⟩ := q
    rw [dictSet] at h
    by_cases hk : k = n
    · rw [if_pos hk] at h
      rcases List.mem_cons.mp h with h1 | h1
      · exact Or.inr (by rw [h1, hk])
      · exact Or.inl (List.mem_cons_of_mem _ h1)
    · rw [if_neg hk] at h
      rcases List.mem_cons.mp h with h1 | h1
      · exact Or.inl (h1 ▸ List.mem_cons_self _ _)
      · rcases ih h1 with h2 | h2
        · exact Or.inl (List.mem_cons_of_mem _ h2)
        · exact Or.inr h2

theorem lookupName_of_mem {seen : List (String × SearchEntry)} {n : String} {e : SearchEntry}
    (hnd : (seen.map Prod.fst).Nodup) (h : (n, e) ∈ seen) : lookupName seen n = some e := by
  induction seen with
  | nil => simp at h
  | cons q t ih =>
    obtain ⟨k, v⟩ := q
    simp only [List.map_cons, List.nodup_cons] at hnd
    rcases List.mem_cons.mp h with h1 | h1
    · rw [← h1]
      simp [lookupName]
    · rw [lookupName]
      by_cases hk : k = n
      · exfalso
        apply hnd.1
        rw [hk]
        exact List.mem_map.mpr ⟨(n, e), h1, rfl⟩
      · rw [if_neg hk]
        exact ih hnd.2 h1

theorem mem_of_lookupName {seen : List (String × SearchEntry)} {n : String} {e : SearchEntry}
    (h : lookupName seen n = some e) : (n, e) ∈ seen := by
  induction seen with
  | nil => simp [lookupName] at h
  | cons q t ih =>
    obtain ⟨k, v⟩ := q
    rw [lookupName] at h
    by_cases hk : k = n
    · rw [if_pos hk] at h
      exact List.mem_cons.mpr (Or.inl (by rw [hk, Option.some_inj.mp h]))
    · rw [if_neg hk] at h
      exact List.mem_cons_of_mem _ (ih h)

/-! ## Lemmas: characterising the deduplication loop -/

theorem qualHits_cons_none {itt : List Tool} {t : ℚ} {cl : Option String} {h : ℚ × ℕ}
    (hits : List (ℚ × ℕ)) (hq : qualMeta itt t cl h = none) :
    qualHits itt t cl (h :: hits) = qualHits itt t cl hits := by
  rw [qualHits, List.filterMap_cons, hq]
  rfl

theorem qualHits_cons_some {itt : List Tool} {t : ℚ} {cl : Option String} {h : ℚ × ℕ}
    {m : Tool} (hits : List (ℚ × ℕ)) (hq : qualMeta itt t cl h = some m) :
    qualHits itt t cl (h :: hits) = (h.1, m) :: qualHits itt t cl hits := by
  rw [qualHits, List.filterMap_cons, hq]
  rfl

theorem qualNames_cons_none {itt : List Tool} {t : ℚ} {cl : Option String} {h : ℚ × ℕ}
    (hits : List (ℚ × ℕ)) (hq : qualMeta itt t cl h = none) :
    qualNames itt t cl (h :: hits) = qualNames itt t cl hits := by
  rw [qualNames, qualNames, qualHits_cons_none hits hq]

theorem qualNames_cons_some {itt : List Tool} {t : ℚ} {cl : Option String} {h : ℚ × ℕ}
    {m : Tool} (hits : List (ℚ × ℕ)) (hq : qualMeta itt t cl h = some m) :
    qualNames itt t cl (h :: hits) = m.name :: qualNames itt t cl hits := by
  rw [qualNames, qualNames, qualHits_cons_some hits hq]
  rfl

theorem qualPairsFor_cons_none {itt : List Tool} {t : ℚ} {cl : Option String} {h : ℚ × ℕ}
    (hits : List (ℚ × ℕ)) (n : String) (hq : qualMeta itt t cl h = none) :
    qualPairsFor itt t cl (h :: hits) n = qualPairsFor itt t cl hits n := by
  rw [qualPairsFor, qualPairsFor, qualHits_cons_none hits hq]

theorem qualPairsFor_cons_hit {itt : List Tool} {t : ℚ} {cl : Option String} {h : ℚ × ℕ}
    {m : Tool} (hits : List (ℚ × ℕ)) (hq : qualMeta itt t cl h = some m) :
    qualPairsFor itt t cl (h :: hits) m.name
      = (h.1, m) :: qualPairsFor itt t cl hits m.name := by
  rw [qualPairsFor, qualPairsFor, qualHits_cons_some hits hq, List.filter_cons_of_pos (by simp)]

theorem qualPairsFor_cons_miss {itt : List Tool} {t : ℚ} {cl : Option String} {h : ℚ × ℕ}
    {m : Tool} {n : String} (hits : List (ℚ × ℕ)) (hq : qualMeta itt t cl h = some m)
    (hn : m.name ≠ n) :
    qualPairsFor itt t cl (h :: hits) n = qualPairsFor itt t cl hits n := by
  rw [qualPairsFor, qualPairsFor, qualHits_cons_some hits hq,
    List.filter_cons_of_neg (by simpa using hn)]

theorem dedupStep_none {itt : List Tool} {t : ℚ} {cl : Option String}
    (seen : List (String × SearchEntry)) {h : ℚ × ℕ} (hq : qualMeta itt t cl h = none) :
    dedupStep itt t cl seen h = seen := by
  rw [dedupStep]
  rw [qualMeta] at hq
  by_cases ht : h.1 < t
  · rw [if_pos ht]
  · rw [if_neg ht] at hq ⊢
    cases hg : itt[h.2]? with
    | none => rfl
    | some meta =>
      simp only [hg] at hq ⊢
      by_cases hc : catRejects cl meta
      · simp [hc]
      · simp [hc] at hq

theorem dedupStep_some {itt : List Tool} {t : ℚ} {cl : Option String}
    (seen : List (String × SearchEntry)) {h : ℚ × ℕ} {meta : Tool}
    (hq : qualMeta itt t cl h = some meta) :
    dedupStep itt t cl seen h =
      (match lookupName seen meta.name with
       | none => dictSet seen meta.name ⟨meta, round4 h.1⟩
       | some e =>
           if e.score < h.1 then dictSet seen meta.name ⟨meta, round4 h.1⟩ else seen) := by
  rw [dedupStep]
  rw [qualMeta] at hq
  by_cases ht : h.1 < t
  · rw [if_pos ht] at hq
    cases hq
  · rw [if_neg ht] at hq
    rw [if_neg ht]
    cases hg : itt[h.2]? with
    | none =>
      simp only [hg] at hq
      cases hq
    | some meta' =>
      simp only [hg] at hq ⊢
      by_cases hc : catRejects cl meta'
      · rw [if_pos hc] at hq; cases hq
      · rw [if_neg hc] at hq
        cases hq
        simp [hc]

/-- Along the dedup loop, the dict keys are the qualifying hit names in
first-occurrence order (new keys appended at the end). -/
theorem dedup_foldl_keys (itt : List Tool) (t : ℚ) (cl : Option String) :
    ∀ (hits : List (ℚ × ℕ)) (seen : List (String × SearchEntry)),
      ((hits.foldl (dedupStep itt t cl) seen).map Prod.fst)
        = seen.map Prod.fst
          ++ (firstOcc (qualNames itt t cl hits)).filter
              (fun x => decide (x ∉ seen.map Prod.fst))
  | [], seen => by simp [qualNames, qualHits, firstOcc]
  | h :: hits, seen => by
    rw [List.foldl_cons]
    cases hq : qualMeta itt t cl h with
    | none =>
      rw [dedupStep_none seen hq, qualNames_cons_none hits hq]
      exact dedup_foldl_keys itt t cl hits seen
    | some meta =>
      rw [dedupStep_some seen hq, qualNames_cons_some hits hq]
      cases hl : lookupName seen meta.name with
      | none =>
        dsimp only
        have hnotin : meta.name ∉ seen.map Prod.fst := lookupName_eq_none.mp hl
        rw [dedup_foldl_keys itt t cl hits (dictSet seen meta.name ⟨meta, round4 h.1⟩),
          dictSet_map_fst_of_not_mem _ hnotin, firstOcc,
          List.filter_cons_of_pos (by simpa using hnotin), List.append_assoc]
        refine congrArg _ ?_
        simp only [List.cons_append, List.nil_append]
        refine congrArg _ ?_
        rw [firstOcc_filter, List.filter_filter]
        refine List.filter_congr (fun x hx => ?_)
        by_cases hxn : x = meta.name
        · simp [hxn, hnotin]
        · simp [hxn]
      | some e =>
        dsimp only
        have hin : meta.name ∈ seen.map Prod.fst := by
          by_contra hcon
          rw [← lookupName_eq_none] at hcon
          rw [hcon] at hl
          cases hl
        have hrhs :
            (firstOcc (meta.name :: qualNames itt t cl hits)).filter
                (fun x => decide (x ∉ seen.map Prod.fst))
              = (firstOcc (qualNames itt t cl hits)).filter
                  (fun x => decide (x ∉ seen.map Prod.fst)) := by
          rw [firstOcc, List.filter_cons_of_neg (by simpa using hin),
            firstOcc_filter, List.filter_filter]
          refine List.filter_congr (fun x hx => ?_)
          by_cases hxn : x = meta.name
          · simp [hxn, hin]
          · simp [hxn]
        rw [hrhs]
        by_cases hscore : e.score < h.1
        · rw [if_pos hscore,
            dedup_foldl_keys itt t cl hits (dictSet seen meta.name ⟨meta, round4 h.1⟩),
            dictSet_map_fst_of_mem _ hin]
        · rw [if_neg hscore, dedup_foldl_keys itt t cl hits seen]

/-- Along the dedup loop, the dict value of each name evolves by
`updBest` over that name's qualifying hits. -/
theorem dedup_foldl_lookup (itt : List Tool) (t : ℚ) (cl : Option String) :
    ∀ (hits : List (ℚ × ℕ)) (seen : List (String × SearchEntry)) (n : String),
      lookupName (hits.foldl (dedupStep itt t cl) seen) n
        = (qualPairsFor itt t cl hits n).foldl updBest (lookupName seen n)
  | [], seen, n => by simp [qualPairsFor, qualHits, List.foldl_nil]
  | h :: hits, seen, n => by
    rw [List.foldl_cons, dedup_foldl_lookup itt t cl hits (dedupStep itt t cl seen h) n]
    cases hq : qualMeta itt t cl h with
    | none => rw [dedupStep_none seen hq, qualPairsFor_cons_none hits n hq]
    | some meta =>
      rw [dedupStep_some seen hq]
      by_cases hn : meta.name = n
      · subst hn
        rw [qualPairsFor_cons_hit hits hq, List.foldl_cons]
        refine congrArg (fun i => List.foldl updBest i (qualPairsFor itt t cl hits meta.name)) ?_
        cases hl : lookupName seen meta.name with
        | none =>
          simp only [hl, lookupName_dictSet_self, updBest]
        | some e =>
          simp only [hl, updBest]
          by_cases hscore : e.score < h.1
          · simp only [if_pos hscore, lookupName_dictSet_self]
          · simp only [if_neg hscore, hl]
      · rw [qualPairsFor_cons_miss hits hq hn]
        refine congrArg (fun i => List.foldl updBest i (qualPairsFor itt t cl hits n)) ?_
        cases hl : lookupName seen meta.name with
        | none => simp only [hl, lookupName_dictSet_ne _ _ (fun hc => hn hc.symm)]
        | some e =>
          simp only [hl]
          by_cases hscore : e.score < h.1
          · simp only [if_pos hscore, lookupName_dictSet_ne _ _ (fun hc => hn hc.symm)]
          · simp only [if_neg hscore]

/-! ## Lemmas: running maxima and the per-name best entry -/

theorem le_foldl_max : ∀ (l : List ℚ) (a : ℚ), a ≤ l.foldl max a
  | [], _ => le_refl _
  | x :: l, a => le_trans (le_max_left a x) (le_foldl_max l (max a x))

theorem foldl_max_le : ∀ (l : List ℚ) {a b : ℚ}, a ≤ b → (∀ x ∈ l, x ≤ b) → l.foldl max a ≤ b
  | [], _, _, ha, _ => ha
  | x :: l, a, b, ha, hl => by
    rw [List.foldl_cons]
    exact foldl_max_le l (max_le ha (hl x (List.mem_cons_self _ _)))
      (fun y hy => hl y (List.mem_cons_of_mem _ hy))

theorem foldl_max_mem : ∀ (l : List ℚ) (a : ℚ), l.foldl max a = a ∨ l.foldl max a ∈ l
  | [], _ => Or.inl rfl
  | x :: l, a => by
    rw [List.foldl_cons]
    rcases foldl_max_mem l (max a x) with h | h
    · rcases max_choice a x with hm | hm
      · exact Or.inl (by rw [h, hm])
      · exact Or.inr (by rw [h, hm]; exact List.mem_cons_self _ _)
    · exact Or.inr (List.mem_cons_of_mem _ h)

theorem mem_le_foldl_max : ∀ (l : List ℚ) (a : ℚ) (x : ℚ), x ∈ l → x ≤ l.foldl max a
  | [], _, _, hx => absurd hx (List.not_mem_nil _)
  | y :: l, a, x, hx => by
    rw [List.foldl_cons]
    rcases List.mem_cons.mp hx with h | h
    · exact le_trans (h ▸ le_max_right a y) (le_foldl_max l (max a y))
    · exact mem_le_foldl_max l (max a y) x h

/-- One `updBest` step tracks `round4` of the running maximum. -/
theorem updBest_score {e : SearchEntry} {m : ℚ} (he : e.score = round4 m) (p : ℚ × Tool) :
    ∃ e', updBest (some e) p = some e'
      ∧ e'.score = round4 (max m p.1)
      ∧ (e' = e ∨ e' = ⟨p.2, round4 p.1⟩) := by
  rw [updBest]
  by_cases hlt : e.score < p.1
  · refine ⟨⟨p.2, round4 p.1⟩, by rw [if_pos hlt], ?_, Or.inr rfl⟩
    rcases le_total m p.1 with hmp | hmp
    · rw [max_eq_right hmp]
    · rw [max_eq_left hmp]
      rw [he] at hlt
      exact round4_eq_right hlt hmp
  · refine ⟨e, by rw [if_neg hlt], ?_, Or.inl rfl⟩
    push_neg at hlt
    rcases le_total p.1 m with hmp | hmp
    · rw [max_eq_left hmp, he]
    · rw [max_eq_right hmp, he]
      rw [he] at hlt
      exact (round4_eq_left hmp hlt).symm

/-- The fold of `updBest` from a stored entry computes `round4` of the
overall maximum, and the stored metadata is one of the encountered ones. -/
theorem foldl_updBest_some :
    ∀ (ps : List (ℚ × Tool)) (e : SearchEntry) (m : ℚ), e.score = round4 m →
      ∃ e', ps.foldl updBest (some e) = some e'
        ∧ e'.score = round4 ((ps.map Prod.fst).foldl max m)
        ∧ (e' = e ∨ ∃ p ∈ ps, e'.meta = p.2)
  | [], e, m, he => ⟨e, rfl, by rw [List.map_nil, List.foldl_nil]; exact he, Or.inl rfl⟩
  | p :: ps, e, m, he => by
    rw [List.foldl_cons, List.map_cons, List.foldl_cons]
    obtain ⟨e1, he1, hs1, hm1⟩ := updBest_score he p
    rw [he1]
    obtain ⟨e', he', hs', hm'⟩ := foldl_updBest_some ps e1 (max m p.1) hs1
    refine ⟨e', he', hs', ?_⟩
    rcases hm' with h | ⟨q, hq, hqe⟩
    · rcases hm1 with h1 | h1
      · exact Or.inl (h.trans h1)
      · exact Or.inr ⟨p, List.mem_cons_self _ _, by rw [h, h1]⟩
    · exact Or.inr ⟨q, List.mem_cons_of_mem _ hq, hqe⟩

/-- The fold of `updBest` from `none` over a non-empty pair list. -/
theorem foldl_updBest_none {ps : List (ℚ × Tool)} (hne : ps ≠ []) :
    ∃ e' M, ps.foldl updBest none = some e'
      ∧ maxQ (ps.map Prod.fst) = some M
      ∧ e'.score = round4 M
      ∧ ∃ p ∈ ps, e'.meta = p.2 := by
  cases ps with
  | nil => exact absurd rfl hne
  | cons p ps =>
    rw [List.foldl_cons]
    have h0 : updBest none p = some ⟨p.2, round4 p.1⟩ := rfl
    rw [h0]
    obtain ⟨e', he', hs', hm'⟩ :=
      foldl_updBest_some ps ⟨p.2, round4 p.1⟩ p.1 rfl
    refine ⟨e', (ps.map Prod.fst).foldl max p.1, he', ?_, hs', ?_⟩
    · rw [List.map_cons, maxQ]
    · rcases hm' with h | ⟨q, hq, hqe⟩
      · exact ⟨p, List.mem_cons_self _ _, by rw [h]⟩
      · exact ⟨q, List.mem_cons_of_mem _ hq, hqe⟩

theorem foldl_updBest_ne_none {ps : List (ℚ × Tool)} (hne : ps ≠ []) :
    ps.foldl updBest none ≠ none := by
  obtain ⟨e', M, he', _, _, _⟩ := foldl_updBest_none hne
  rw [he']
  exact Option.some_ne_none _

/-! ## Lemmas: top-level characterisation of `dedupHits` -/

theorem dedupHits_lookup (itt : List Tool) (t : ℚ) (cl : Option String)
    (hits : List (ℚ × ℕ)) (n : String) :
    lookupName (dedupHits itt t cl hits) n
      = (qualPairsFor itt t cl hits n).foldl updBest none := by
  rw [dedupHits, dedup_foldl_lookup]
  rfl

theorem dedupHits_keys (itt : List Tool) (t : ℚ) (cl : Option String)
    (hits : List (ℚ × ℕ)) :
    (dedupHits itt t cl hits).map Prod.fst = firstOcc (qualNames itt t cl hits) := by
  rw [dedupHits, dedup_foldl_keys]
  simp

theorem dedupHits_keys_nodup (itt : List Tool) (t : ℚ) (cl : Option String)
    (hits : List (ℚ × ℕ)) : ((dedupHits itt t cl hits).map Prod.fst).Nodup := by
  rw [dedupHits_keys]
  exact nodup_firstOcc _

/-- Membership facts for qualifying hits. -/
theorem mem_qualHits {itt : List Tool} {t : ℚ} {cl : Option String} {hits : List (ℚ × ℕ)}
    {p : ℚ × Tool} (hp : p ∈ qualHits itt t cl hits) :
    ∃ h ∈ hits, h.1 = p.1 ∧ qualMeta itt t cl h = some p.2 := by
  rw [qualHits] at hp
  obtain ⟨h, hh, hf⟩ := List.mem_filterMap.mp hp
  rcases Option.map_eq_some'.mp hf with ⟨m, hm, hpm⟩
  exact ⟨h, hh, by rw [← hpm], by rw [hm, ← hpm]⟩

theorem qualMeta_some_facts {itt : List Tool} {t : ℚ} {cl : Option String} {h : ℚ × ℕ}
    {meta : Tool} (hq : qualMeta itt t cl h = some meta) :
    ¬h.1 < t ∧ itt[h.2]? = some meta ∧ catRejects cl meta = false := by
  rw [qualMeta] at hq
  by_cases ht : h.1 < t
  · rw [if_pos ht] at hq
    cases hq
  · rw [if_neg ht] at hq
    cases hg : itt[h.2]? with
    | none => simp only [hg] at hq; cases hq
    | some meta' =>
      simp only [hg] at hq
      by_cases hc : catRejects cl meta'
      · rw [if_pos hc] at hq; cases hq
      · rw [if_neg hc] at hq
        cases hq
        exact ⟨ht, rfl, by simpa using hc⟩

/-- Every stored dict pair is keyed by its entry's tool name, stores
`round4` of the best qualifying raw score of that name, and carries the
metadata of one of that name's qualifying hits. -/
theorem mem_dedupHits_char {itt : List Tool} {t : ℚ} {cl : Option String}
    {hits : List (ℚ × ℕ)} {n : String} {e : SearchEntry}
    (hmem : (n, e) ∈ dedupHits itt t cl hits) :
    ∃ M, bestQual itt t cl hits n = some M
      ∧ e.score = round4 M
      ∧ ∃ p ∈ qualPairsFor itt t cl hits n, e.meta = p.2 := by
  have hl : lookupName (dedupHits itt t cl hits) n = some e :=
    lookupName_of_mem (dedupHits_keys_nodup itt t cl hits) hmem
  rw [dedupHits_lookup] at hl
  have hne : qualPairsFor itt t cl hits n ≠ [] := by
    intro hnil
    rw [hnil] at hl
    cases hl
  obtain ⟨e', M, he', hM, hs, p, hp, hpm⟩ := foldl_updBest_none hne
  rw [he'] at hl
  cases hl
  exact ⟨M, hM, hs, p, hp, hpm⟩

/-- The name stored in a dict pair is the entry's tool name. -/
theorem mem_dedupHits_name {itt : List Tool} {t : ℚ} {cl : Option String}
    {hits : List (ℚ × ℕ)} {n : String} {e : SearchEntry}
    (hmem : (n, e) ∈ dedupHits itt t cl hits) : e.meta.name = n := by
  obtain ⟨M, _, _, p, hp, hpm⟩ := mem_dedupHits_char hmem
  rw [qualPairsFor] at hp
  have := List.of_mem_filter hp
  rw [hpm]
  simpa using this

/-! ## Lemmas: the stable descending sorts -/

theorem sortHits_sorted (l : List (ℚ × ℕ)) :
    (List.insertionSort hitGE l).Pairwise (fun a b => b.1 ≤ a.1) := by
  refine (List.sorted_insertionSort hitGE l).imp ?_
  intro a b hab
  rcases hab with h | ⟨h, _⟩
  · exact le_of_lt h
  · exact le_of_eq h.symm

theorem sortEntries_sorted (l : List SearchEntry) :
    (List.insertionSort entryGE l).Pairwise (fun a b => b.score ≤ a.score) :=
  List.sorted_insertionSort entryGE l

theorem sortEntries_perm (l : List SearchEntry) :
    List.insertionSort entryGE l ~ l :=
  List.perm_insertionSort entryGE l

/-- Stability of the descending entry sort, filter form: the elements of
any one score class appear in the sorted list exactly in their original
order. -/
theorem sortEntries_filter_eq (l : List SearchEntry) (v : ℚ) :
    (List.insertionSort entryGE l).filter (fun e => e.score = v)
      = l.filter (fun e => e.score = v) := by
  set p : SearchEntry → Bool := fun e => decide (e.score = v) with hp
  have hpw : (l.filter p).Pairwise entryGE := by
    refine List.pairwise_of_forall_mem_list ?_
    intro a ha b hb
    have ha' : a.score = v := by simpa [hp] using List.of_mem_filter ha
    have hb' : b.score = v := by simpa [hp] using List.of_mem_filter hb
    show b.score ≤ a.score
    rw [ha', hb']
  have hsub : l.filter p <+ List.insertionSort entryGE l :=
    List.sublist_insertionSort hpw (List.filter_sublist l)
  have h2 : (l.filter p).filter p <+ (List.insertionSort entryGE l).filter p :=
    hsub.filter p
  rw [List.filter_filter] at h2
  have h3 : l.filter (fun a => p a && p a) = l.filter p :=
    List.filter_congr (fun a _ => Bool.and_self (p a))
  rw [h3] at h2
  have hlen : ((List.insertionSort entryGE l).filter p).length = (l.filter p).length :=
    ((List.perm_insertionSort entryGE l).filter p).length_eq
  exact (h2.eq_of_length hlen.symm).symm

/-- `orderedInsert` does not pass an element that dominates the whole
right block. -/
theorem orderedInsert_append (a : SearchEntry) (X Y : List SearchEntry)
    (hY : ∀ y ∈ Y, entryGE a y) :
    (X ++ Y).orderedInsert entryGE a = X.orderedInsert entryGE a ++ Y := by
  induction X with
  | nil =>
    cases Y with
    | nil => rfl
    | cons y ys =>
      simp only [List.nil_append, List.orderedInsert]
      rw [if_pos (hY y (List.mem_cons_self _ _))]
      rfl
  | cons x xs ih =>
    simp only [List.cons_append, List.orderedInsert, List.append_eq]
    by_cases hax : entryGE a x
    · rw [if_pos hax, if_pos hax]
      rfl
    · rw [if_neg hax, if_neg hax, ih]
      rfl

/-- Sorting a concatenation whose left block dominates its right block
sorts the blocks independently. -/
theorem insertionSort_append (S E : List SearchEntry)
    (h : ∀ s ∈ S, ∀ e ∈ E, entryGE s e) :
    List.insertionSort entryGE (S ++ E)
      = List.insertionSort entryGE S ++ List.insertionSort entryGE E := by
  induction S with
  | nil => rfl
  | cons a S ih =>
    simp only [List.cons_append, List.insertionSort, List.append_eq]
    rw [ih (fun s hs e he => h s (List.mem_cons_of_mem _ hs) e he)]
    refine orderedInsert_append a _ _ ?_
    intro y hy
    exact h a (List.mem_cons_self _ _) y ((List.mem_insertionSort entryGE).mp hy)

/-! ## Lemmas: the search pipeline -/

/-- Case analysis of a successful `search`. -/
theorem search_ok_cases {embed : String → Except Unit (List ℚ)} {idx : FAISSToolIndex}
    {query : String} {top_k : ℕ} {threshold : ℚ} {category : Option String}
    {res : List SearchEntry}
    (h : idx.search embed query top_k threshold category = .ok res) :
    (idx.built = false ∧ res = [])
      ∨ (idx.built = true
          ∧ ∃ qv, embed query = .ok qv
              ∧ min idx.vecs.length (top_k * 10) ≠ 0
              ∧ res = searchPost idx qv top_k threshold (normCat category)) := by
  rw [FAISSToolIndex.search] at h
  by_cases hb : idx.built = false
  · rw [if_pos hb] at h
    cases h
    exact Or.inl ⟨hb, rfl⟩
  · rw [if_neg hb] at h
    have hb' : idx.built = true := by
      cases hbe : idx.built
      · exact absurd hbe hb
      · rfl
    cases he : embed query with
    | error e => rw [he] at h; cases h
    | ok qv =>
      simp only [he] at h
      by_cases hk : min idx.vecs.length (top_k * 10) = 0
      · rw [if_pos hk] at h
        cases h
      · rw [if_neg hk] at h
        cases h
        exact Or.inr ⟨hb', qv, rfl, hk, rfl⟩

theorem searchPost_def (idx : FAISSToolIndex) (qv : List ℚ) (top_k : ℕ) (threshold : ℚ)
    (catLower : Option String) :
    searchPost idx qv top_k threshold catLower
      = (List.insertionSort entryGE
          ((dedupHits idx.index_to_tool threshold catLower (rawHits idx qv top_k)).map
            Prod.snd)).take top_k := by
  rfl

/-- Members of the search output are values of the dedup dict. -/
theorem mem_searchPost {idx : FAISSToolIndex} {qv : List ℚ} {top_k : ℕ} {threshold : ℚ}
    {catLower : Option String} {e : SearchEntry}
    (he : e ∈ searchPost idx qv top_k threshold catLower) :
    (e.meta.name, e) ∈ dedupHits idx.index_to_tool threshold catLower (rawHits idx qv top_k) := by
  rw [searchPost_def] at he
  have h1 := (List.take_sublist _ _).mem he
  have h2 := (sortEntries_perm _).mem_iff.mp h1
  obtain ⟨p, hp, hpe⟩ := List.mem_map.mp h2
  have hname := mem_dedupHits_name hp
  obtain ⟨n, e'⟩ := p
  cases hpe
  rwa [hname]

theorem searchPost_sorted (idx : FAISSToolIndex) (qv : List ℚ) (top_k : ℕ) (threshold : ℚ)
    (catLower : Option String) :
    (searchPost idx qv top_k threshold catLower).Pairwise (fun a b => b.score ≤ a.score) := by
  rw [searchPost_def]
  exact (sortEntries_sorted _).sublist (List.take_sublist _ _)

theorem searchPost_length (idx : FAISSToolIndex) (qv : List ℚ) (top_k : ℕ) (threshold : ℚ)
    (catLower : Option String) :
    (searchPost idx qv top_k threshold catLower).length ≤ top_k := by
  rw [searchPost_def]
  exact List.length_take_le _ _

/-- The tool names of the dict values, in order, are the dict keys. -/
theorem dedupHits_values_names (itt : List Tool) (t : ℚ) (cl : Option String)
    (hits : List (ℚ × ℕ)) :
    ((dedupHits itt t cl hits).map Prod.snd).map (fun e => e.meta.name)
      = (dedupHits itt t cl hits).map Prod.fst := by
  rw [List.map_map]
  refine List.map_congr_left ?_
  intro p hp
  exact mem_dedupHits_name (by simpa using hp)

/-- No tool name repeats in the search output. -/
theorem searchPost_names_nodup (idx : FAISSToolIndex) (qv : List ℚ) (top_k : ℕ)
    (threshold : ℚ) (catLower : Option String) :
    ((searchPost idx qv top_k threshold catLower).map (fun e => e.meta.name)).Nodup := by
  rw [searchPost_def]
  have hperm :
      ((List.insertionSort entryGE
          ((dedupHits idx.index_to_tool threshold catLower (rawHits idx qv top_k)).map
            Prod.snd)).map (fun e => e.meta.name))
        ~ (((dedupHits idx.index_to_tool threshold catLower (rawHits idx qv top_k)).map
            Prod.snd).map (fun e => e.meta.name)) :=
    (sortEntries_perm _).map _
  have hnd : (((dedupHits idx.index_to_tool threshold catLower (rawHits idx qv top_k)).map
      Prod.snd).map (fun e => e.meta.name)).Nodup := by
    rw [dedupHits_values_names]
    exact dedupHits_keys_nodup _ _ _ _
  have hnd2 := hperm.nodup_iff.mpr hnd
  exact hnd2.sublist ((List.take_sublist _ _).map _)

/-! ## Lemmas: building the index -/

theorem embedBatch_ok_length {embed : String → Except Unit (List ℚ)} :
    ∀ {ts : List String} {vs : List (List ℚ)}, embedBatch embed ts = .ok vs →
      vs.length = ts.length
  | [], vs, h => by
    rw [embedBatch] at h
    cases h
    rfl
  | s :: ss, vs, h => by
    rw [embedBatch] at h
    cases he : embed s with
    | error e => rw [he] at h; cases h
    | ok v =>
      rw [he] at h
      cases hb : embedBatch embed ss with
      | error e => rw [hb] at h; cases h
      | ok vs' =>
        rw [hb] at h
        cases h
        rw [List.length_cons, embedBatch_ok_length hb, List.length_cons]

theorem allReprs_eq_nil {tools : List Tool} (h : allReprs tools = []) : tools = [] := by
  cases tools with
  | nil => rfl
  | cons t ts =>
    rw [allReprs, List.flatMap_cons, toolReprs] at h
    cases h

theorem allReprs_length (tools : List Tool) :
    (allReprs tools).length
      = (tools.map (fun t => 1 + (t.examples.getD []).length)).sum := by
  rw [allReprs, List.length_flatMap]
  congr 1
  refine List.map_congr_left ?_
  intro t _
  show (toolReprs t).length = 1 + (t.examples.getD []).length
  rw [toolReprs, List.length_cons, List.length_map]
  omega

/-! ## Claim theorems -/

/-- C6: every tool with N examples contributes exactly `1 + N`
representations (one description representation plus one per example), so
a successfully built index stores `Σ (1 + N)` vectors and equally many
metadata entries, in parallel. -/
theorem build_vector_and_metadata_counts
    {embed : String → Except Unit (List ℚ)} {tools : List Tool} {idx : FAISSToolIndex}
    (h : FAISSToolIndex.build embed tools = .ok idx) :
    idx.total_vectors = (tools.map (fun t => 1 + (t.examples.getD []).length)).sum
      ∧ idx.index_to_tool.length
          = (tools.map (fun t => 1 + (t.examples.getD []).length)).sum := by
  rw [FAISSToolIndex.build] at h
  by_cases hnil : (allReprs tools).isEmpty
  · rw [if_pos hnil] at h
    cases h
    have htools : tools = [] := allReprs_eq_nil (List.isEmpty_iff.mp hnil)
    subst htools
    exact ⟨rfl, rfl⟩
  · rw [if_neg hnil] at h
    cases hb : embedBatch embed ((allReprs tools).map Prod.fst) with
    | error e => rw [hb] at h; cases h
    | ok vecs =>
      rw [hb] at h
      cases h
      constructor
      · show vecs.length = _
        rw [embedBatch_ok_length hb, List.length_map, allReprs_length]
      · show ((allReprs tools).map Prod.snd).length = _
        rw [List.length_map, allReprs_length]

/-- C6 witness: a concrete successful build. -/
theorem build_vector_and_metadata_counts_witness :
    FAISSToolIndex.build embedOne [toolA, toolB] = .ok idxBuiltAB
      ∧ idxBuiltAB.total_vectors
          = ([toolA, toolB].map (fun t => 1 + (t.examples.getD []).length)).sum := by
  have hb : FAISSToolIndex.build embedOne [toolA, toolB] = .ok idxBuiltAB := by
    with_unfolding_all rfl
  exact ⟨hb, (build_vector_and_metadata_counts hb).1⟩

/-- C1 (code bug): `rebuild_faiss_index` replaces the module-level index
with a fresh unbuilt `FAISSToolIndex()` *before* calling `build`, so when
the build raises, the current index afterwards is the empty unbuilt one —
the previously current (built) index is lost, contradicting the spec's
"rebuild aborts and leaves the previous Index current". -/
theorem rebuild_build_error_discards_previous_index
    (embed : String → Except Unit (List ℚ)) (tools : List Tool) (current : FAISSToolIndex)
    (hbuilt : current.built = true)
    (hfail : FAISSToolIndex.build embed tools = .error ()) :
    (rebuild_faiss_index embed tools current).1 = emptyIndex
      ∧ (rebuild_faiss_index embed tools current).1 ≠ current
      ∧ (rebuild_faiss_index embed tools current).2 = .error () := by
  have htne : tools.isEmpty = false := by
    cases htools : tools with
    | nil =>
      rw [htools] at hfail
      rw [FAISSToolIndex.build] at hfail
      rw [if_pos (by rw [allReprs]; rfl)] at hfail
      cases hfail
    | cons t ts => rfl
  have hr : rebuild_faiss_index embed tools current = (emptyIndex, .error ()) := by
    rw [rebuild_faiss_index]
    rw [htne]
    simp only [Bool.false_eq_true, if_false, hfail]
  refine ⟨by rw [hr], ?_, by rw [hr]⟩
  rw [hr]
  intro hcon
  rw [← hcon] at hbuilt
  cases hbuilt

/-- C1 witness: a concrete built index, a one-tool catalogue and a raising
provider. -/
theorem rebuild_build_error_discards_previous_index_witness :
    idxA.built = true
      ∧ FAISSToolIndex.build embedFail [toolB] = .error ()
      ∧ (rebuild_faiss_index embedFail [toolB] idxA).1 = emptyIndex
      ∧ (rebuild_faiss_index embedFail [toolB] idxA).1 ≠ idxA := by
  have hb : FAISSToolIndex.build embedFail [toolB] = .error () := by
    with_unfolding_all rfl
  have h := rebuild_build_error_discards_previous_index embedFail [toolB] idxA rfl hb
  exact ⟨rfl, hb, h.1, h.2.1⟩

/-- C7: searching an empty or never-built index is not an error: the
index-level search returns `[]` for every query, the endpoint answers an
empty catalogue with a successful response carrying the explicit
"no tools registered" message, and a response produced by a built index
never carries that message (its `message` field is `none`), so the two
empty results are distinguishable. -/
theorem empty_index_search_and_message :
    (∀ (embed : String → Except Unit (List ℚ)) (idx : FAISSToolIndex) (query : String)
        (top_k : ℕ) (threshold : ℚ) (category : Option String), idx.built = false →
        idx.search embed query top_k threshold category = .ok [])
      ∧ (∀ (embed : String → Except Unit (List ℚ)) (st : FAISSToolIndex)
          (req : SearchRequest), st.built = false → req.query.trim ≠ "" →
          tmp_search embed st [] req = (emptyIndex, .ok [] 0 (some noToolsMsg)))
      ∧ (∀ (embed : String → Except Unit (List ℚ)) (st : FAISSToolIndex)
          (tools_db : List Tool) (req : SearchRequest) (st' : FAISSToolIndex)
          (res : List SearchEntry) (cnt : ℕ) (msg : Option String), st.built = true →
          tmp_search embed st tools_db req = (st', .ok res cnt msg) → msg = none) := by
  refine ⟨?_, ?_, ?_⟩
  · intro embed idx query top_k threshold category hb
    rw [FAISSToolIndex.search, if_pos hb]
  · intro embed st req hb hq
    rw [tmp_search, if_neg hq, if_neg (by simp [hb])]
    have hr : rebuild_faiss_index embed [] st = (emptyIndex, .ok emptyIndex) := rfl
    rw [hr]
    dsimp only
    unfold tmpServe
    rfl
  · intro embed st tools_db req st' res cnt msg hb h
    rw [tmp_search] at h
    by_cases hq : req.query.trim = ""
    · rw [if_pos hq] at h
      exact absurd (congrArg Prod.snd h) (by simp)
    · rw [if_neg hq, if_pos hb] at h
      unfold tmpServe at h
      rw [if_neg (by simp [hb])] at h
      cases hsearch : st.search embed req.query.trim (min req.top_k 20) req.threshold
          (if req.category.trim = "" then none else some req.category.trim) with
      | error e =>
        rw [hsearch] at h
        exact absurd (congrArg Prod.snd h) (by simp)
      | ok results =>
        rw [hsearch] at h
        have h2 := congrArg Prod.snd h
        simp only at h2
        cases h2
        rfl

/-- C7 witness: an empty catalogue with an unbuilt index yields the
explicit empty-state message. -/
theorem empty_index_search_and_message_witness :
    tmp_search embedOne emptyIndex [] reqOk = (emptyIndex, .ok [] 0 (some noToolsMsg)) :=
  empty_index_search_and_message.2.1 embedOne emptyIndex reqOk rfl
    (by with_unfolding_all decide)

/-- C8 counterexample: a request whose `threshold` (5) is far outside the
documented range `[0, 1]` is not rejected as an input error — it is
accepted and answered with a normal 200 response (here with an empty
result list, because no score reaches 5).  The requested `top_k` is
likewise clamped rather than rejected.  This falsifies the claim that
out-of-range `top_k`/`threshold` are rejected immediately. -/
theorem out_of_range_threshold_not_rejected :
    (tmp_search embedOne idxA [] reqBadThreshold).2 = .ok [] 0 none
      ∧ TmpResponse.isInputError (tmp_search embedOne idxA [] reqBadThreshold).2 = false := by
  constructor
  · with_unfolding_all decide
  · with_unfolding_all decide

/-- C8 (amended): a request whose query is empty or blank after trimming
is rejected immediately with an input error; the rejection happens before
any embedding-provider call and before any index access (the response and
the unchanged engine state do not depend on the provider, the index or
the catalogue, over which the statement is universally quantified).
Out-of-range `top_k` is clamped, not rejected, and `threshold` is
accepted unvalidated (see the counterexample). -/
theorem blank_query_rejected_before_engine
    (embed : String → Except Unit (List ℚ)) (st : FAISSToolIndex) (tools_db : List Tool)
    (req : SearchRequest) (hq : req.query.trim = "") :
    tmp_search embed st tools_db req = (st, .inputError missingQueryMsg) := by
  rw [tmp_search, if_pos hq]

/-- C8 witness: the blank-query request is rejected identically for a
raising provider and a working one — no provider call is made. -/
theorem blank_query_rejected_before_engine_witness :
    tmp_search embedFail emptyIndex [] reqBlank = (emptyIndex, .inputError missingQueryMsg)
      ∧ tmp_search embedOne idxA [toolA] reqBlank = (idxA, .inputError missingQueryMsg) :=
  ⟨blank_query_rejected_before_engine embedFail emptyIndex [] reqBlank
      (by with_unfolding_all decide),
    blank_query_rejected_before_engine embedOne idxA [toolA] reqBlank
      (by with_unfolding_all decide)⟩

/-- C9: every successful response of the search endpoint carries a tool
list sorted by score in descending order, with at most
`min (requested top_k) 20` entries (the requested `top_k` is clamped to
the engine ceiling 20 before the search, and the ranked list is truncated
to it), and the reported count equals the list's length. -/
theorem search_endpoint_sorted_and_bounded
    (embed : String → Except Unit (List ℚ)) (st : FAISSToolIndex) (tools_db : List Tool)
    (req : SearchRequest) (st' : FAISSToolIndex) (res : List SearchEntry) (cnt : ℕ)
    (msg : Option String)
    (h : tmp_search embed st tools_db req = (st', .ok res cnt msg)) :
    res.Pairwise (fun a b => b.score ≤ a.score)
      ∧ res.length ≤ min req.top_k 20
      ∧ cnt = res.length := by
  rw [tmp_search] at h
  by_cases hq : req.query.trim = ""
  · rw [if_pos hq] at h
    exact absurd (congrArg Prod.snd h) (by simp)
  · rw [if_neg hq] at h
    have hserve : ∃ s0 idx, tmpServe embed s0 idx req = (st', .ok res cnt msg) := by
      by_cases hb : st.built
      · rw [if_pos hb] at h
        exact ⟨st, st, h⟩
      · rw [if_neg hb] at h
        cases hr : rebuild_faiss_index embed tools_db st with
        | mk a b =>
          rw [hr] at h
          cases b with
          | error e => exact absurd (congrArg Prod.snd h) (by simp)
          | ok idx => exact ⟨a, idx, h⟩
    obtain ⟨s0, idx, hs⟩ := hserve
    unfold tmpServe at hs
    by_cases hbi : idx.built = false
    · rw [if_pos hbi] at hs
      have h2 := congrArg Prod.snd hs
      simp only at h2
      cases h2
      exact ⟨List.Pairwise.nil, by simp, rfl⟩
    · rw [if_neg hbi] at hs
      cases hsearch : idx.search embed req.query.trim (min req.top_k 20) req.threshold
          (if req.category.trim = "" then none else some req.category.trim) with
      | error e =>
        rw [hsearch] at hs
        exact absurd (congrArg Prod.snd hs) (by simp)
      | ok results =>
        rw [hsearch] at hs
        have h2 := congrArg Prod.snd hs
        simp only at h2
        cases h2
        rcases search_ok_cases hsearch with ⟨_, hres⟩ | ⟨_, qv, _, _, hres⟩
        · subst hres
          exact ⟨List.Pairwise.nil, by simp, rfl⟩
        · subst hres
          exact ⟨searchPost_sorted _ _ _ _ _, searchPost_length _ _ _ _ _, rfl⟩

/-- C9 witness: a concrete successful run. -/
theorem search_endpoint_sorted_and_bounded_witness :
    tmp_search embedOne idxA [] reqOk = (idxA, .ok [⟨toolA, 1⟩] 1 none)
      ∧ ([⟨toolA, 1⟩] : List SearchEntry).Pairwise (fun a b => b.score ≤ a.score)
      ∧ ([⟨toolA, 1⟩] : List SearchEntry).length ≤ min reqOk.top_k 20 := by
  have hrun : tmp_search embedOne idxA [] reqOk = (idxA, .ok [⟨toolA, 1⟩] 1 none) := by
    with_unfolding_all decide
  have h := search_endpoint_sorted_and_bounded embedOne idxA [] reqOk idxA
    [⟨toolA, 1⟩] 1 none hrun
  exact ⟨hrun, h.1, h.2.1⟩

/-- Every entry of the search output passed the category filter. -/
theorem mem_searchPost_catRejects {idx : FAISSToolIndex} {qv : List ℚ} {top_k : ℕ}
    {threshold : ℚ} {catLower : Option String} {e : SearchEntry}
    (he : e ∈ searchPost idx qv top_k threshold catLower) :
    catRejects catLower e.meta = false := by
  obtain ⟨M, _, _, p, hp, hpm⟩ := mem_dedupHits_char (mem_searchPost he)
  have hq : p ∈ qualHits idx.index_to_tool threshold catLower (rawHits idx qv top_k) :=
    List.mem_of_mem_filter hp
  obtain ⟨hit, _, _, hqm⟩ := mem_qualHits hq
  rw [hpm]
  exact (qualMeta_some_facts hqm).2.2

/-- C5 counterexample: the empty string is a non-null category filter in
the claim's sense, but in the code it is falsy, so the filter is skipped
entirely: the search returns `toolA`, whose category `"Trading"` differs
case-insensitively from `""`.  This falsifies the claim for the empty
(non-null) filter. -/
theorem empty_category_filter_is_ignored :
    FAISSToolIndex.search embedOne idxA "q" 5 (mkRat 1 10) (some "") = .ok [⟨toolA, 1⟩]
      ∧ toolA.category = some "Trading"
      ∧ ("Trading".toLower = "".toLower) = False := by
  refine ⟨?_, rfl, ?_⟩
  · with_unfolding_all decide
  · with_unfolding_all decide

/-- C5 (amended): for every *non-empty* non-null category filter `C`, no
tool appears in the result whose category differs case-insensitively from
`C`, and tools with an absent (null) category are excluded; an
empty-string filter is treated as no filter (see the counterexample). -/
theorem search_category_filter_sound
    {embed : String → Except Unit (List ℚ)} {idx : FAISSToolIndex} {query : String}
    {top_k : ℕ} {threshold : ℚ} {c : String} {res : List SearchEntry}
    (hc : c.toLower ≠ "")
    (h : idx.search embed query top_k threshold (some c) = .ok res) :
    ∀ e ∈ res, ∃ cat, e.meta.category = some cat ∧ cat.toLower = c.toLower := by
  rcases search_ok_cases h with ⟨_, hres⟩ | ⟨_, qv, _, _, hres⟩
  · subst hres
    intro e he
    cases he
  · subst hres
    intro e he
    have hcne : c ≠ "" := fun hc0 => hc (by rw [hc0]; exact toLower_empty)
    have hnorm : normCat (some c) = some c.toLower := by
      rw [normCat, if_neg hcne]
    rw [hnorm] at he
    have hcr := mem_searchPost_catRejects he
    rw [catRejects, if_neg hc] at hcr
    have heq : (e.meta.category.getD "").toLower = c.toLower := by
      by_contra hne
      rw [decide_eq_false_iff_not] at hcr
      exact hcr hne
    cases hcat : e.meta.category with
    | none =>
      exfalso
      rw [hcat] at heq
      refine hc (by rw [← heq]; exact toLower_empty)
    | some cat =>
      rw [hcat] at heq
      exact ⟨cat, rfl, heq⟩

/-- C5 witness: a non-empty filter `"trading"` returns `toolA`, whose
category `"Trading"` matches case-insensitively. -/
theorem search_category_filter_sound_witness :
    FAISSToolIndex.search embedOne idxA "q" 5 (mkRat 1 10) (some "trading")
        = .ok [⟨toolA, 1⟩]
      ∧ ∃ cat, toolA.category = some cat ∧ cat.toLower = "trading".toLower := by
  have hrun : FAISSToolIndex.search embedOne idxA "q" 5 (mkRat 1 10) (some "trading")
      = .ok [⟨toolA, 1⟩] := by
    with_unfolding_all decide
  refine ⟨hrun, ?_⟩
  have h := search_category_filter_sound (by with_unfolding_all decide) hrun
    ⟨toolA, 1⟩ (List.mem_singleton.mpr rfl)
  exact h

/-- C2 counterexample: with a single stored vector of inner product
`0.12347` against the query, the only result entry's score is the rounded
`0.1235`, not the raw maximum `0.12347` — the entry's score is *not* the
maximum raw score of the tool's qualifying hits, only its rounding. -/
theorem score_is_rounded_not_raw_max :
    FAISSToolIndex.search embedOne idxC "q" 5 (mkRat 1 10) none
        = .ok [⟨toolB, mkRat 1235 10000⟩]
      ∧ bestQual idxC.index_to_tool (mkRat 1 10) none (rawHits idxC [1] 5) "get_balance"
          = some (mkRat 12347 100000)
      ∧ (mkRat 1235 10000 ≠ mkRat 12347 100000) := by
  refine ⟨?_, ?_, ?_⟩
  · with_unfolding_all decide
  · with_unfolding_all rfl
  · with_unfolding_all decide

/-- C2 (amended): the search result contains at most one entry per
distinct tool name, and each entry's score equals the *maximum* raw score
over that tool's qualifying (threshold- and category-passing) raw top-K
hits, rounded to 4 decimal places (Python `round`); without the rounding
the statement fails (see the counterexample). -/
theorem search_dedup_unique_and_max
    {embed : String → Except Unit (List ℚ)} {idx : FAISSToolIndex} {query : String}
    {top_k : ℕ} {threshold : ℚ} {category : Option String} {qv : List ℚ}
    {res : List SearchEntry}
    (hqv : embed query = .ok qv)
    (h : idx.search embed query top_k threshold category = .ok res) :
    (res.map (fun e => e.meta.name)).Nodup
      ∧ ∀ e ∈ res, ∃ M,
          bestQual idx.index_to_tool threshold (normCat category) (rawHits idx qv top_k)
              e.meta.name = some M
            ∧ e.score = round4 M := by
  rcases search_ok_cases h with ⟨_, hres⟩ | ⟨_, qv', hqv', _, hres⟩
  · subst hres
    exact ⟨List.nodup_nil, fun e he => absurd he (List.not_mem_nil e)⟩
  · rw [hqv] at hqv'
    cases hqv'
    subst hres
    refine ⟨searchPost_names_nodup _ _ _ _ _, fun e he => ?_⟩
    obtain ⟨M, hM, hs, _⟩ := mem_dedupHits_char (mem_searchPost he)
    exact ⟨M, hM, hs⟩

/-- C2 witness: a concrete deduplicating run — `toolA` has two
representations (description and one example), both hit, and the result
lists the tool once with the rounded best score. -/
theorem search_dedup_unique_and_max_witness :
    FAISSToolIndex.search embedOne idxBuiltAB "q" 5 (mkRat 1 10) none
        = .ok [⟨toolA, 1⟩, ⟨toolB, 1⟩]
      ∧ (([⟨toolA, 1⟩, ⟨toolB, 1⟩] : List SearchEntry).map (fun e => e.meta.name)).Nodup := by
  have hrun : FAISSToolIndex.search embedOne idxBuiltAB "q" 5 (mkRat 1 10) none
      = .ok [⟨toolA, 1⟩, ⟨toolB, 1⟩] := by
    with_unfolding_all decide
  exact ⟨hrun, (search_dedup_unique_and_max rfl hrun).1⟩

/-- C10 (implicit): each result entry's score field is the best raw
inner-product score rounded to 4 decimal places (round-half-even), and
the final ordering is by these rounded values, descending.  (That the
dedup comparison pits the later raw score against the stored *rounded*
score is the `e.score < hit.1` test in `dedupStep`; its observable
consequence is exactly the rounded-maximum score proved here.) -/
theorem search_scores_rounded_and_ordered
    {embed : String → Except Unit (List ℚ)} {idx : FAISSToolIndex} {query : String}
    {top_k : ℕ} {threshold : ℚ} {category : Option String} {qv : List ℚ}
    {res : List SearchEntry}
    (hqv : embed query = .ok qv)
    (h : idx.search embed query top_k threshold category = .ok res) :
    (∀ e ∈ res, ∃ M,
        bestQual idx.index_to_tool threshold (normCat category) (rawHits idx qv top_k)
            e.meta.name = some M
          ∧ e.score = round4 M)
      ∧ res.Pairwise (fun a b => b.score ≤ a.score) := by
  rcases search_ok_cases h with ⟨_, hres⟩ | ⟨_, qv', hqv', _, hres⟩
  · subst hres
    exact ⟨fun e he => absurd he (List.not_mem_nil e), List.Pairwise.nil⟩
  · rw [hqv] at hqv'
    cases hqv'
    subst hres
    refine ⟨fun e he => ?_, searchPost_sorted _ _ _ _ _⟩
    obtain ⟨M, hM, hs, _⟩ := mem_dedupHits_char (mem_searchPost he)
    exact ⟨M, hM, hs⟩

/-- C10 witness: the `0.12347` raw score is reported as `0.1235`. -/
theorem search_scores_rounded_and_ordered_witness :
    FAISSToolIndex.search embedOne idxC "q" 5 (mkRat 1 10) none
        = .ok [⟨toolB, mkRat 1235 10000⟩]
      ∧ (∃ M, bestQual idxC.index_to_tool (mkRat 1 10) none (rawHits idxC [1] 5)
            toolB.name = some M
          ∧ (mkRat 1235 10000) = round4 M) := by
  have hrun : FAISSToolIndex.search embedOne idxC "q" 5 (mkRat 1 10) none
      = .ok [⟨toolB, mkRat 1235 10000⟩] := by
    with_unfolding_all decide
  refine ⟨hrun, ?_⟩
  have h := (search_scores_rounded_and_ordered rfl hrun).1 ⟨toolB, mkRat 1235 10000⟩
    (List.mem_singleton.mpr rfl)
  exact h

/-- C4: for fixed inputs the search output is uniquely determined (the
model is a pure function of the index and the inputs); the dict keys —
hence the candidate entries — are ordered by the *first* qualifying
occurrence of each tool name in the raw hit list, and within every score
class the final ranking preserves exactly that order (the sort is stable,
so ties between equal rounded scores are resolved by original insertion
order of the raw hits). -/
theorem search_deterministic_stable_ties
    {embed : String → Except Unit (List ℚ)} {idx : FAISSToolIndex} {query : String}
    {top_k : ℕ} {threshold : ℚ} {category : Option String} {qv : List ℚ}
    {res : List SearchEntry}
    (hqv : embed query = .ok qv)
    (h : idx.search embed query top_k threshold category = .ok res) :
    (∀ res', idx.search embed query top_k threshold category = .ok res' → res' = res)
      ∧ (dedupHits idx.index_to_tool threshold (normCat category)
            (rawHits idx qv top_k)).map Prod.fst
          = firstOcc (qualNames idx.index_to_tool threshold (normCat category)
              (rawHits idx qv top_k))
      ∧ (∀ v : ℚ, ∃ rest,
          ((dedupHits idx.index_to_tool threshold (normCat category)
              (rawHits idx qv top_k)).map Prod.snd).filter (fun e => e.score = v)
            = res.filter (fun e => e.score = v) ++ rest) := by
  refine ⟨?_, dedupHits_keys _ _ _ _, ?_⟩
  · intro res' h'
    rw [h] at h'
    cases h'
    rfl
  · intro v
    rcases search_ok_cases h with ⟨_, hres⟩ | ⟨_, qv', hqv', _, hres⟩
    · subst hres
      exact ⟨_, by rw [List.filter_nil, List.nil_append]⟩
    · rw [hqv] at hqv'
      cases hqv'
      subst hres
      rw [searchPost_def]
      refine ⟨(List.drop top_k (List.insertionSort entryGE
        ((dedupHits idx.index_to_tool threshold (normCat category)
          (rawHits idx qv top_k)).map Prod.snd))).filter (fun e => e.score = v), ?_⟩
      rw [← List.filter_append, List.take_append_drop, sortEntries_filter_eq]

/-- C4 witness: a concrete run with its key-order equation. -/
theorem search_deterministic_stable_ties_witness :
    FAISSToolIndex.search embedOne idxBuiltAB "q" 5 (mkRat 1 10) none
        = .ok [⟨toolA, 1⟩, ⟨toolB, 1⟩]
      ∧ (dedupHits idxBuiltAB.index_to_tool (mkRat 1 10) none
            (rawHits idxBuiltAB [1] 5)).map Prod.fst
          = firstOcc (qualNames idxBuiltAB.index_to_tool (mkRat 1 10) none
              (rawHits idxBuiltAB [1] 5)) := by
  have hrun : FAISSToolIndex.search embedOne idxBuiltAB "q" 5 (mkRat 1 10) none
      = .ok [⟨toolA, 1⟩, ⟨toolB, 1⟩] := by
    with_unfolding_all decide
  exact ⟨hrun, (search_deterministic_stable_ties rfl hrun).2.1⟩

/-! ## Lemmas towards threshold monotonicity (C3) -/

theorem maxQ_spec {l : List ℚ} (hne : l ≠ []) :
    ∃ m, maxQ l = some m ∧ m ∈ l ∧ ∀ x ∈ l, x ≤ m := by
  cases l with
  | nil => exact absurd rfl hne
  | cons r rs =>
    refine ⟨rs.foldl max r, rfl, ?_, ?_⟩
    · rcases foldl_max_mem rs r with h | h
      · rw [h]
        exact List.mem_cons_self _ _
      · exact List.mem_cons_of_mem _ h
    · intro x hx
      rcases List.mem_cons.mp hx with h | h
      · rw [h]
        exact le_foldl_max rs r
      · exact mem_le_foldl_max rs r x h

/-- Filtering a list of scores from below does not change its maximum, as
long as something passes the filter. -/
theorem maxQ_filter_ge {l : List ℚ} {T : ℚ}
    (hne : l.filter (fun r => decide (T ≤ r)) ≠ []) :
    maxQ l = maxQ (l.filter (fun r => decide (T ≤ r))) := by
  have hlne : l ≠ [] := by
    intro h
    rw [h] at hne
    exact hne rfl
  obtain ⟨m, hm, hmem, hub⟩ := maxQ_spec hlne
  obtain ⟨m', hm', hmem', hub'⟩ := maxQ_spec hne
  have hm'l : m' ∈ l := List.mem_of_mem_filter hmem'
  have hTm' : T ≤ m' := by
    have := List.of_mem_filter hmem'
    simpa using this
  have hmf : m ∈ l.filter (fun r => decide (T ≤ r)) :=
    List.mem_filter.mpr ⟨hmem, by simpa using le_trans hTm' (hub m' hm'l)⟩
  have h1 : m ≤ m' := hub' m hmf
  have h2 : m' ≤ m := hub m' hm'l
  rw [hm, hm', le_antisymm h1 h2]

theorem qualMeta_mono_none {itt : List Tool} {T1 T2 : ℚ} {cl : Option String} {h : ℚ × ℕ}
    (hT : T1 ≤ T2) (hq : qualMeta itt T1 cl h = none) : qualMeta itt T2 cl h = none := by
  rw [qualMeta] at hq ⊢
  by_cases ht2 : h.1 < T2
  · rw [if_pos ht2]
  · rw [if_neg ht2]
    have ht1 : ¬h.1 < T1 := fun hcon => ht2 (lt_of_lt_of_le hcon hT)
    rw [if_neg ht1] at hq
    exact hq

theorem qualMeta_mono_some_ge {itt : List Tool} {T1 T2 : ℚ} {cl : Option String} {h : ℚ × ℕ}
    {m : Tool} (hle : T2 ≤ h.1) (hq : qualMeta itt T1 cl h = some m) :
    qualMeta itt T2 cl h = some m := by
  rw [qualMeta] at hq ⊢
  rw [if_neg (not_lt.mpr hle)]
  by_cases ht1 : h.1 < T1
  · rw [if_pos ht1] at hq
    cases hq
  · rw [if_neg ht1] at hq
    exact hq

theorem qualMeta_lt_none {itt : List Tool} {T2 : ℚ} {cl : Option String} {h : ℚ × ℕ}
    (hlt : h.1 < T2) : qualMeta itt T2 cl h = none := by
  rw [qualMeta, if_pos hlt]

/-- Raising the threshold filters the qualifying hits from below. -/
theorem qualHits_threshold_filter {itt : List Tool} {T1 T2 : ℚ} {cl : Option String}
    (hT : T1 ≤ T2) :
    ∀ hits : List (ℚ × ℕ),
      qualHits itt T2 cl hits
        = (qualHits itt T1 cl hits).filter (fun p => decide (T2 ≤ p.1))
  | [] => rfl
  | h :: hits => by
    cases hq1 : qualMeta itt T1 cl h with
    | none =>
      rw [qualHits_cons_none hits (qualMeta_mono_none hT hq1), qualHits_cons_none hits hq1]
      exact qualHits_threshold_filter hT hits
    | some m =>
      rw [qualHits_cons_some hits hq1]
      by_cases hge : T2 ≤ h.1
      · rw [qualHits_cons_some hits (qualMeta_mono_some_ge hge hq1),
          List.filter_cons_of_pos (by simpa using hge)]
        rw [qualHits_threshold_filter hT hits]
      · rw [qualHits_cons_none hits (qualMeta_lt_none (not_le.mp hge)),
          List.filter_cons_of_neg (by simpa using hge)]
        exact qualHits_threshold_filter hT hits

theorem qualPairsFor_threshold_filter {itt : List Tool} {T1 T2 : ℚ} {cl : Option String}
    {hits : List (ℚ × ℕ)} (hT : T1 ≤ T2) (n : String) :
    qualPairsFor itt T2 cl hits n
      = (qualPairsFor itt T1 cl hits n).filter (fun p => decide (T2 ≤ p.1)) := by
  rw [qualPairsFor, qualPairsFor, qualHits_threshold_filter hT, List.filter_filter,
    List.filter_filter]
  exact List.filter_congr (fun p _ => by rw [Bool.and_comm])

theorem qualScoresFor_threshold_filter {itt : List Tool} {T1 T2 : ℚ} {cl : Option String}
    {hits : List (ℚ × ℕ)} (hT : T1 ≤ T2) (n : String) :
    qualScoresFor itt T2 cl hits n
      = (qualScoresFor itt T1 cl hits n).filter (fun r => decide (T2 ≤ r)) := by
  rw [qualScoresFor, qualScoresFor, qualPairsFor_threshold_filter hT n]
  induction qualPairsFor itt T1 cl hits n with
  | nil => rfl
  | cons p ps ih =>
    by_cases hp : T2 ≤ p.1
    · rw [List.filter_cons_of_pos (by simpa using hp), List.map_cons, List.map_cons,
        List.filter_cons_of_pos (by simpa using hp), ih]
    · rw [List.filter_cons_of_neg (by simpa using hp), List.map_cons,
        List.filter_cons_of_neg (by simpa using hp), ih]

/-- A surviving name's best qualifying score is unchanged by raising the
threshold. -/
theorem bestQual_threshold_eq {itt : List Tool} {T1 T2 : ℚ} {cl : Option String}
    {hits : List (ℚ × ℕ)} {n : String} (hT : T1 ≤ T2)
    (hs : survivesAt itt T2 cl hits n = true) :
    bestQual itt T1 cl hits n = bestQual itt T2 cl hits n := by
  rw [bestQual, bestQual, qualScoresFor_threshold_filter hT n]
  refine maxQ_filter_ge ?_
  rw [survivesAt, Bool.not_eq_eq_eq_not, Bool.not_true, List.isEmpty_eq_false_iff_exists_mem]
    at hs
  rw [qualScoresFor_threshold_filter hT n] at hs
  obtain ⟨x, hx⟩ := hs
  intro hcon
  rw [hcon] at hx
  exact List.not_mem_nil x hx

theorem rawHits_sorted (idx : FAISSToolIndex) (qv : List ℚ) (top_k : ℕ) :
    (rawHits idx qv top_k).Pairwise (fun a b => b.1 ≤ a.1) := by
  rw [rawHits, faissTopK]
  exact (sortHits_sorted _).sublist (List.take_sublist _ _)

theorem qualHits_sorted {itt : List Tool} {t : ℚ} {cl : Option String} :
    ∀ {hits : List (ℚ × ℕ)}, hits.Pairwise (fun a b => b.1 ≤ a.1) →
      (qualHits itt t cl hits).Pairwise (fun p q => q.1 ≤ p.1)
  | [], _ => by rw [qualHits]; exact List.Pairwise.nil
  | h :: hits, hp => by
    have htail := (List.pairwise_cons.mp hp).2
    have hhead := (List.pairwise_cons.mp hp).1
    cases hq : qualMeta itt t cl h with
    | none =>
      rw [qualHits_cons_none hits hq]
      exact qualHits_sorted htail
    | some m =>
      rw [qualHits_cons_some hits hq]
      refine List.pairwise_cons.mpr ⟨?_, qualHits_sorted htail⟩
      intro q hqmem
      obtain ⟨h', hh', hfst, _⟩ := mem_qualHits hqmem
      rw [← hfst]
      exact hhead h' hh'

theorem firstOcc_nil : firstOcc [] = [] := by rw [firstOcc]

theorem firstOcc_pairNames_cons (p : ℚ × Tool) (L : List (ℚ × Tool)) :
    firstOcc (pairNames (p :: L))
      = p.2.name :: (firstOcc (pairNames L)).filter (fun x => decide (x ≠ p.2.name)) := by
  rw [pairNames, List.map_cons, ← pairNames, firstOcc, firstOcc_filter]

theorem survB_cons {T2 : ℚ} {p : ℚ × Tool} {L : List (ℚ × Tool)} {n : String} :
    survB T2 (p :: L) n
      = ((decide (p.2.name = n) && decide (T2 ≤ p.1)) || survB T2 L n) := by
  rw [survB, survB, List.any_cons]

theorem survB_head_true {T2 : ℚ} {p : ℚ × Tool} {L : List (ℚ × Tool)}
    (hge : T2 ≤ p.1) : survB T2 (p :: L) p.2.name = true := by
  rw [survB_cons]
  simp [hge]

/-- L5: first-occurrence key order after raising the threshold is the
restriction of the original key order to the surviving names;
needs the hit list sorted by score descending. -/
theorem firstOcc_pairNames_filter {T2 : ℚ} :
    ∀ L : List (ℚ × Tool), L.Pairwise (fun a b => b.1 ≤ a.1) →
      firstOcc (pairNames (L.filter (fun p => decide (T2 ≤ p.1))))
        = (firstOcc (pairNames L)).filter (survB T2 L)
  | [], _ => by
    simp [pairNames, firstOcc_nil]
  | p :: L, hsorted => by
    have hd := (List.pairwise_cons.mp hsorted).1
    have htail := (List.pairwise_cons.mp hsorted).2
    by_cases hge : T2 ≤ p.1
    · rw [List.filter_cons_of_pos (by simpa using hge), firstOcc_pairNames_cons,
        firstOcc_pairNames_filter L htail, firstOcc_pairNames_cons,
        List.filter_cons_of_pos (survB_head_true hge),
        List.filter_filter, List.filter_filter]
      refine congrArg _ (List.filter_congr (fun x _ => ?_))
      by_cases hxn : x = p.2.name
      · simp [hxn]
      · have hsx : survB T2 (p :: L) x = survB T2 L x := by
          rw [survB_cons]
          have hdx : decide (p.2.name = x) = false := by
            simp only [decide_eq_false_iff_not]
            exact fun h => hxn h.symm
          rw [hdx, Bool.false_and, Bool.false_or]
        rw [hsx, Bool.and_comm]
    · have hnone : ∀ q ∈ p :: L, ¬(T2 ≤ q.1) := by
        intro q hq
        rcases List.mem_cons.mp hq with h | h
        · rw [h]; exact hge
        · exact fun hcon => hge (le_trans hcon (hd q h))
      have hfilt : (p :: L).filter (fun p => decide (T2 ≤ p.1)) = [] := by
        rw [List.filter_eq_nil_iff]
        intro q hq
        simpa using hnone q hq
      rw [hfilt]
      have hsurvfalse : (firstOcc (pairNames (p :: L))).filter (survB T2 (p :: L)) = [] := by
        rw [List.filter_eq_nil_iff]
        intro x _
        simp only [survB, List.any_eq_true, Bool.and_eq_true, decide_eq_true_eq, not_exists,
          not_and]
        intro q hq _
        exact fun hcon => hnone q hq hcon
      rw [hsurvfalse]
      simp [pairNames, firstOcc_nil]

/-- L6: along the first-occurrence key order of a score-descending hit
list, survival of a later key implies survival of every earlier key. -/
theorem firstOcc_pairNames_surv_pairwise {T2 : ℚ} :
    ∀ L : List (ℚ × Tool), L.Pairwise (fun a b => b.1 ≤ a.1) →
      (firstOcc (pairNames L)).Pairwise
        (fun n n' => survB T2 L n' = true → survB T2 L n = true)
  | [], _ => by
    rw [pairNames, List.map_nil, firstOcc_nil]
    exact List.Pairwise.nil
  | p :: L, hsorted => by
    have hd := (List.pairwise_cons.mp hsorted).1
    have htail := (List.pairwise_cons.mp hsorted).2
    rw [firstOcc_pairNames_cons]
    refine List.pairwise_cons.mpr ⟨?_, ?_⟩
    · intro n' hn' hs'
      rw [survB] at hs'
      rw [List.any_eq_true] at hs'
      obtain ⟨q, hq, hqp⟩ := hs'
      simp only [Bool.and_eq_true, decide_eq_true_eq] at hqp
      have hqscore : T2 ≤ p.1 := by
        rcases List.mem_cons.mp hq with h | h
        · rw [← h]; exact hqp.2
        · exact le_trans hqp.2 (hd q h)
      exact survB_head_true hqscore
    · have hpw := @firstOcc_pairNames_surv_pairwise T2 L htail
      have hpw2 : ((firstOcc (pairNames L)).filter
            (fun x => decide (x ≠ p.2.name))).Pairwise
          (fun n n' => survB T2 L n' = true → survB T2 L n = true) :=
        hpw.sublist (List.filter_sublist _)
      refine hpw2.imp_of_mem ?_
      intro a b ha hb himp hsb
      have hane : a ≠ p.2.name := by simpa using List.of_mem_filter ha
      have hbne : b ≠ p.2.name := by simpa using List.of_mem_filter hb
      have hsb' : survB T2 L b = true := by
        rw [survB_cons] at hsb
        rcases Bool.or_eq_true_iff.mp hsb with h | h
        · exfalso
          simp only [Bool.and_eq_true, decide_eq_true_eq] at h
          exact hbne h.1.symm
        · exact h
      have := himp hsb'
      rw [survB_cons]
      rw [this]
      rw [Bool.or_true]

theorem mem_of_getElem_opt {l : List Tool} {i : ℕ} {a : Tool} (h : l[i]? = some a) :
    a ∈ l := by
  obtain ⟨hlt, rfl⟩ := List.getElem?_eq_some.mp h
  exact List.getElem_mem _

theorem qualPairsFor_meta_mem {itt : List Tool} {t : ℚ} {cl : Option String}
    {hits : List (ℚ × ℕ)} {n : String} {p : ℚ × Tool}
    (hp : p ∈ qualPairsFor itt t cl hits n) : p.2 ∈ itt ∧ p.2.name = n := by
  have hname : p.2.name = n := by simpa using List.of_mem_filter hp
  have hq : p ∈ qualHits itt t cl hits := List.mem_of_mem_filter hp
  obtain ⟨h, _, _, hqm⟩ := mem_qualHits hq
  exact ⟨mem_of_getElem_opt (qualMeta_some_facts hqm).2.1, hname⟩

/-- The surviving-name test, restated over the lower threshold's
qualifying hits. -/
theorem survivesAt_eq_survB {itt : List Tool} {T1 T2 : ℚ} {cl : Option String}
    {hits : List (ℚ × ℕ)} (hT : T1 ≤ T2) (n : String) :
    survivesAt itt T2 cl hits n = survB T2 (qualHits itt T1 cl hits) n := by
  have hiff : qualScoresFor itt T2 cl hits n ≠ []
      ↔ ∃ p ∈ qualHits itt T1 cl hits, p.2.name = n ∧ T2 ≤ p.1 := by
    rw [qualScoresFor, qualPairsFor, qualHits_threshold_filter hT]
    constructor
    · intro hne
      obtain ⟨r, hr⟩ := List.exists_mem_of_ne_nil _ hne
      obtain ⟨p, hp, _⟩ := List.mem_map.mp hr
      have hpn : p.2.name = n := by simpa using List.of_mem_filter hp
      have hp1 := List.mem_of_mem_filter hp
      have hp2 : p ∈ qualHits itt T1 cl hits := List.mem_of_mem_filter hp1
      have hps : T2 ≤ p.1 := by simpa using List.of_mem_filter hp1
      exact ⟨p, hp2, hpn, hps⟩
    · rintro ⟨p, hp, hpn, hps⟩
      intro hnil
      have hmem : p.1 ∈ (((qualHits itt T1 cl hits).filter
          (fun p => decide (T2 ≤ p.1))).filter (fun p => p.2.name = n)).map Prod.fst := by
        refine List.mem_map.mpr ⟨p, ?_, rfl⟩
        refine List.mem_filter.mpr ⟨List.mem_filter.mpr ⟨hp, by simpa using hps⟩, ?_⟩
        simpa using hpn
      rw [hnil] at hmem
      exact List.not_mem_nil _ hmem
  rw [Bool.eq_iff_iff, survivesAt]
  constructor
  · intro h
    have hne : qualScoresFor itt T2 cl hits n ≠ [] := by
      intro hcon
      rw [hcon] at h
      cases h
    obtain ⟨p, hp, hpn, hps⟩ := hiff.mp hne
    rw [survB, List.any_eq_true]
    exact ⟨p, hp, by simp [hpn, hps]⟩
  · intro h
    rw [survB, List.any_eq_true] at h
    obtain ⟨p, hp, hpp⟩ := h
    simp only [Bool.and_eq_true, decide_eq_true_eq] at hpp
    have hne := hiff.mpr ⟨p, hp, hpp.1, hpp.2⟩
    cases hsc : qualScoresFor itt T2 cl hits n with
    | nil => exact absurd hsc hne
    | cons r rs => rfl

/-- Two insertion-ordered dicts with the same (duplicate-free) key
sequence and the same lookups are equal. -/
theorem assoc_ext : ∀ {s₁ s₂ : List (String × SearchEntry)},
    s₁.map Prod.fst = s₂.map Prod.fst → (s₁.map Prod.fst).Nodup →
    (∀ n, lookupName s₁ n = lookupName s₂ n) → s₁ = s₂
  | [], [], _, _, _ => rfl
  | [], (k, v) :: t, hk, _, _ => by cases hk
  | (k, v) :: t, [], hk, _, _ => by cases hk
  | (k₁, v₁) :: t₁, (k₂, v₂) :: t₂, hk, hnd, hl => by
    simp only [List.map_cons, List.cons.injEq] at hk
    obtain ⟨hk12, hkt⟩ := hk
    subst hk12
    have hv : v₁ = v₂ := by
      have h := hl k₁
      rw [lookupName, if_pos rfl, lookupName, if_pos rfl] at h
      exact Option.some_inj.mp h
    subst hv
    refine congrArg _ (assoc_ext hkt ?_ ?_)
    · simp only [List.map_cons, List.nodup_cons] at hnd
      exact hnd.2
    · intro n
      by_cases hn : n = k₁
      · subst hn
        simp only [List.map_cons, List.nodup_cons] at hnd
        have h₁ : lookupName t₁ n = none := lookupName_eq_none.mpr hnd.1
        have h₂ : lookupName t₂ n = none := by
          refine lookupName_eq_none.mpr ?_
          rw [← hkt]
          exact hnd.1
        rw [h₁, h₂]
      · have h := hl n
        rw [lookupName, if_neg (fun hc => hn hc.symm),
          lookupName, if_neg (fun hc => hn hc.symm)] at h
        exact h

theorem map_fst_filter_keyPred (q : String → Bool) :
    ∀ s : List (String × SearchEntry),
      ((s.filter (fun pr => q pr.1)).map Prod.fst) = (s.map Prod.fst).filter q
  | [] => rfl
  | (k, v) :: t => by
    by_cases hq : q k
    · rw [List.filter_cons_of_pos (by simpa using hq), List.map_cons, List.map_cons,
        List.filter_cons_of_pos (by simpa using hq), map_fst_filter_keyPred q t]
    · rw [List.filter_cons_of_neg (by simpa using hq), List.map_cons,
        List.filter_cons_of_neg (by simpa using hq), map_fst_filter_keyPred q t]

theorem lookupName_filter_keyPred (q : String → Bool) :
    ∀ (s : List (String × SearchEntry)) (n : String), (s.map Prod.fst).Nodup →
      lookupName (s.filter (fun pr => q pr.1)) n
        = if q n then lookupName s n else none
  | [], n, _ => by
    by_cases hq : q n
    · rw [List.filter_nil, if_pos hq]
    · rw [List.filter_nil, if_neg hq]
      rw [lookupName]
  | (k, v) :: t, n, hnd => by
    have hndt : (t.map Prod.fst).Nodup := by
      simp only [List.map_cons, List.nodup_cons] at hnd
      exact hnd.2
    have hknt : k ∉ t.map Prod.fst := by
      simp only [List.map_cons, List.nodup_cons] at hnd
      exact hnd.1
    by_cases hk : k = n
    · subst hk
      by_cases hq : q k
      · rw [List.filter_cons_of_pos (by simpa using hq), lookupName, if_pos rfl,
          lookupName, if_pos rfl, if_pos hq]
      · rw [List.filter_cons_of_neg (by simpa using hq), if_neg hq,
          lookupName_filter_keyPred q t k hndt, if_neg hq]
    · by_cases hq : q k
      · rw [List.filter_cons_of_pos (by simpa using hq), lookupName, if_neg hk,
          lookupName, if_neg hk, lookupName_filter_keyPred q t n hndt]
      · rw [List.filter_cons_of_neg (by simpa using hq), lookupName, if_neg hk,
          lookupName_filter_keyPred q t n hndt]

theorem qualPairsFor_nil_of_not_surv {itt : List Tool} {T2 : ℚ} {cl : Option String}
    {hits : List (ℚ × ℕ)} {n : String} (hs : survivesAt itt T2 cl hits n = false) :
    qualPairsFor itt T2 cl hits n = [] := by
  rw [survivesAt, Bool.not_eq_eq_eq_not, Bool.not_false] at hs
  rw [List.isEmpty_iff] at hs
  rw [qualScoresFor] at hs
  exact List.map_eq_nil_iff.mp hs

theorem qualNames_eq_pairNames (itt : List Tool) (t : ℚ) (cl : Option String)
    (hits : List (ℚ × ℕ)) : qualNames itt t cl hits = pairNames (qualHits itt t cl hits) :=
  rfl

/-- L8: raising the threshold restricts the deduplication dict to the
surviving names, with identical entries (the hit list must be sorted by
score descending and tool names must determine their metadata). -/
theorem dedupHits_threshold_filter {itt : List Tool} {T1 T2 : ℚ} {cl : Option String}
    {hits : List (ℚ × ℕ)}
    (hmeta : ∀ t1 ∈ itt, ∀ t2 ∈ itt, t1.name = t2.name → t1 = t2)
    (hsorted : hits.Pairwise (fun a b => b.1 ≤ a.1))
    (hT : T1 ≤ T2) :
    dedupHits itt T2 cl hits
      = (dedupHits itt T1 cl hits).filter
          (fun pr => survivesAt itt T2 cl hits pr.1) := by
  have hkeys2 : (dedupHits itt T2 cl hits).map Prod.fst
      = ((dedupHits itt T1 cl hits).filter
          (fun pr => survivesAt itt T2 cl hits pr.1)).map Prod.fst := by
    rw [map_fst_filter_keyPred, dedupHits_keys, dedupHits_keys,
      qualNames_eq_pairNames, qualNames_eq_pairNames, qualHits_threshold_filter hT,
      firstOcc_pairNames_filter _ (qualHits_sorted hsorted)]
    exact List.filter_congr (fun n _ => (survivesAt_eq_survB hT n).symm)
  refine assoc_ext hkeys2 (dedupHits_keys_nodup _ _ _ _) ?_
  intro n
  rw [lookupName_filter_keyPred _ _ _ (dedupHits_keys_nodup itt T1 cl hits)]
  by_cases hs : survivesAt itt T2 cl hits n = true
  · rw [if_pos hs]
    have h2ne : qualPairsFor itt T2 cl hits n ≠ [] := by
      intro hnil
      have : survivesAt itt T2 cl hits n = false := by
        rw [survivesAt, qualScoresFor, hnil]
        rfl
      rw [hs] at this
      cases this
    have h1ne : qualPairsFor itt T1 cl hits n ≠ [] := by
      intro hnil
      rw [qualPairsFor_threshold_filter hT n, hnil] at h2ne
      exact h2ne rfl
    obtain ⟨e2, M2, he2, hM2, hs2, p2, hp2, hm2⟩ := foldl_updBest_none h2ne
    obtain ⟨e1, M1, he1, hM1, hs1, p1, hp1, hm1⟩ := foldl_updBest_none h1ne
    rw [dedupHits_lookup, dedupHits_lookup, he1, he2]
    have hMeq : M1 = M2 := by
      have hb := bestQual_threshold_eq hT hs
      rw [bestQual, bestQual, qualScoresFor, qualScoresFor, hM1, hM2] at hb
      exact Option.some_inj.mp hb
    have hmem1 := qualPairsFor_meta_mem hp1
    have hmem2 := qualPairsFor_meta_mem hp2
    have hmetaeq : e1.meta = e2.meta := by
      rw [hm1, hm2]
      exact hmeta p1.2 hmem1.1 p2.2 hmem2.1 (by rw [hmem1.2, hmem2.2])
    have hscoreeq : e1.score = e2.score := by
      rw [hs1, hs2, hMeq]
    cases e1 with
    | mk m1 s1 =>
      cases e2 with
      | mk m2 s2 =>
        simp only at hmetaeq hscoreeq
        rw [hmetaeq, hscoreeq]
  · rw [if_neg hs]
    rw [dedupHits_lookup]
    rw [qualPairsFor_nil_of_not_surv (Bool.not_eq_true _ ▸ hs : _ = false)]
    rfl

/-- L7: along the dict values, survival of a later entry's name implies
survival of every earlier entry's name. -/
theorem values_surv_pairwise {itt : List Tool} {T1 T2 : ℚ} {cl : Option String}
    {hits : List (ℚ × ℕ)}
    (hsorted : hits.Pairwise (fun a b => b.1 ≤ a.1)) (hT : T1 ≤ T2) :
    ((dedupHits itt T1 cl hits).map Prod.snd).Pairwise
      (fun e e' => survivesAt itt T2 cl hits e'.meta.name = true →
        survivesAt itt T2 cl hits e.meta.name = true) := by
  have h6 : ((dedupHits itt T1 cl hits).map Prod.fst).Pairwise
      (fun n n' => survB T2 (qualHits itt T1 cl hits) n' = true →
        survB T2 (qualHits itt T1 cl hits) n = true) := by
    rw [dedupHits_keys, qualNames_eq_pairNames]
    exact firstOcc_pairNames_surv_pairwise _ (qualHits_sorted hsorted)
  have h7 := List.pairwise_map.mp h6
  refine List.pairwise_map.mpr (h7.imp_of_mem ?_)
  intro p p' hp hp' himp
  obtain ⟨k, v⟩ := p
  obtain ⟨k', v'⟩ := p'
  dsimp only at himp ⊢
  rw [survivesAt_eq_survB hT, survivesAt_eq_survB hT,
    mem_dedupHits_name hp, mem_dedupHits_name hp']
  exact himp

/-- L9: a list in which satisfying the predicate propagates leftward is
the concatenation of its satisfying prefix and failing suffix. -/
theorem filter_split_of_pairwise (q : SearchEntry → Bool) :
    ∀ l : List SearchEntry, l.Pairwise (fun a b => q b = true → q a = true) →
      l = l.filter q ++ l.filter (fun x => !(q x))
  | [], _ => rfl
  | a :: l, h => by
    have hhead := (List.pairwise_cons.mp h).1
    have htail := (List.pairwise_cons.mp h).2
    by_cases hq : q a
    · rw [List.filter_cons_of_pos (by simpa using hq),
        List.filter_cons_of_neg (by simpa using hq), List.cons_append]
      exact congrArg _ (filter_split_of_pairwise q l htail)
    · have hall : ∀ b ∈ l, ¬(q b = true) := by
        intro b hb hcon
        exact hq (hhead b hb hcon)
      rw [List.filter_cons_of_neg (by simpa using hq),
        List.filter_cons_of_pos (by simpa using hq)]
      have h1 : l.filter q = [] := List.filter_eq_nil_iff.mpr hall
      have h2 : l.filter (fun x => !(q x)) = l := by
        rw [List.filter_eq_self]
        intro b hb
        simpa using hall b hb
      rw [h1, h2, List.nil_append]

/-- Every value of the deduplication dict scores `round4` of its name's
best qualifying raw score. -/
theorem values_mem_char {itt : List Tool} {t : ℚ} {cl : Option String}
    {hits : List (ℚ × ℕ)} {e : SearchEntry}
    (he : e ∈ (dedupHits itt t cl hits).map Prod.snd) :
    ∃ M, bestQual itt t cl hits e.meta.name = some M ∧ e.score = round4 M := by
  obtain ⟨p, hp, hpe⟩ := List.mem_map.mp he
  obtain ⟨k, v⟩ := p
  have hname := mem_dedupHits_name hp
  obtain ⟨M, hM, hs, _⟩ := mem_dedupHits_char hp
  rw [← hpe]
  dsimp only at hname ⊢
  rw [hname]
  exact ⟨M, hM, hs⟩

/-- L10: every surviving value outscores every non-surviving value. -/
theorem values_cross_ge {itt : List Tool} {T1 T2 : ℚ} {cl : Option String}
    {hits : List (ℚ × ℕ)} (hT : T1 ≤ T2) {x y : SearchEntry}
    (hx : x ∈ (dedupHits itt T1 cl hits).map Prod.snd)
    (hy : y ∈ (dedupHits itt T1 cl hits).map Prod.snd)
    (hxs : survivesAt itt T2 cl hits x.meta.name = true)
    (hys : survivesAt itt T2 cl hits y.meta.name = false) :
    entryGE x y := by
  obtain ⟨Mx, hMx, hsx⟩ := values_mem_char hx
  obtain ⟨My, hMy, hsy⟩ := values_mem_char hy
  rw [bestQual] at hMx hMy
  have hxne : qualScoresFor itt T1 cl hits x.meta.name ≠ [] := by
    intro hnil
    rw [hnil] at hMx
    cases hMx
  have hyne : qualScoresFor itt T1 cl hits y.meta.name ≠ [] := by
    intro hnil
    rw [hnil] at hMy
    cases hMy
  obtain ⟨Mx', hMx', hmemx, hubx⟩ := maxQ_spec hxne
  obtain ⟨My', hMy', hmemy, huby⟩ := maxQ_spec hyne
  rw [hMx] at hMx'
  rw [hMy] at hMy'
  cases hMx'
  cases hMy'
  have hTx : T2 ≤ Mx := by
    rw [survivesAt, Bool.not_eq_eq_eq_not, Bool.not_true,
      List.isEmpty_eq_false_iff_exists_mem] at hxs
    obtain ⟨r, hr⟩ := hxs
    rw [qualScoresFor_threshold_filter hT] at hr
    have hrm : r ∈ qualScoresFor itt T1 cl hits x.meta.name := List.mem_of_mem_filter hr
    have hrT : T2 ≤ r := by simpa using List.of_mem_filter hr
    exact le_trans hrT (hubx r hrm)
  have hTy : My < T2 := by
    by_contra hcon
    push_neg at hcon
    have : survivesAt itt T2 cl hits y.meta.name = true := by
      rw [survivesAt, Bool.not_eq_eq_eq_not, Bool.not_true,
        List.isEmpty_eq_false_iff_exists_mem]
      refine ⟨My, ?_⟩
      rw [qualScoresFor_threshold_filter hT]
      exact List.mem_filter.mpr ⟨hmemy, by simpa using hcon⟩
    rw [hys] at this
    cases this
  show y.score ≤ x.score
  rw [hsx, hsy]
  exact round4_mono (le_trans (le_of_lt hTy) hTx)

/-- Projecting the entries out of a key-filtered dict filters them by
their (coinciding) tool name. -/
theorem map_snd_filter_names (q : String → Bool) :
    ∀ s : List (String × SearchEntry), (∀ p ∈ s, p.2.meta.name = p.1) →
      ((s.filter (fun pr => q pr.1)).map Prod.snd)
        = (s.map Prod.snd).filter (fun e => q e.meta.name)
  | [], _ => rfl
  | (k, v) :: t, hn => by
    have hk : v.meta.name = k := hn (k, v) (List.mem_cons_self _ _)
    have ht : ∀ p ∈ t, p.2.meta.name = p.1 := fun p hp => hn p (List.mem_cons_of_mem _ hp)
    by_cases hq : q k
    · rw [List.filter_cons_of_pos (by simpa using hq), List.map_cons, List.map_cons,
        List.filter_cons_of_pos (by simp [hk, hq]), map_snd_filter_names q t ht]
    · rw [List.filter_cons_of_neg (by simpa using hq), List.map_cons,
        List.filter_cons_of_neg (by simp [hk, hq]), map_snd_filter_names q t ht]

/-- L11: raising the threshold truncates the ranked list: the lower
threshold's output is the higher threshold's output followed by a tail. -/
theorem searchPost_threshold_append {idx : FAISSToolIndex} {qv : List ℚ} {top_k : ℕ}
    {T1 T2 : ℚ} {cl : Option String}
    (hmeta : ∀ t1 ∈ idx.index_to_tool, ∀ t2 ∈ idx.index_to_tool, t1.name = t2.name → t1 = t2)
    (hT : T1 ≤ T2) :
    ∃ rest, searchPost idx qv top_k T1 cl = searchPost idx qv top_k T2 cl ++ rest := by
  have hsorted := rawHits_sorted idx qv top_k
  set hits := rawHits idx qv top_k with hhits
  set itt := idx.index_to_tool with hitt
  set pSb : SearchEntry → Bool := fun e => survivesAt itt T2 cl hits e.meta.name with hpSb
  set values1 := (dedupHits itt T1 cl hits).map Prod.snd with hv1
  have hv2 : (dedupHits itt T2 cl hits).map Prod.snd = values1.filter pSb := by
    rw [dedupHits_threshold_filter hmeta hsorted hT, hv1]
    refine map_snd_filter_names _ _ ?_
    intro p hp
    obtain ⟨k, v⟩ := p
    exact mem_dedupHits_name hp
  have hsplit : values1 = values1.filter pSb ++ values1.filter (fun x => !(pSb x)) :=
    filter_split_of_pairwise pSb values1 (values_surv_pairwise hsorted hT)
  have hcross : ∀ s ∈ values1.filter pSb, ∀ e ∈ values1.filter (fun x => !(pSb x)),
      entryGE s e := by
    intro s hs e he
    refine values_cross_ge hT (List.mem_of_mem_filter hs) (List.mem_of_mem_filter he) ?_ ?_
    · simpa [hpSb] using List.of_mem_filter hs
    · have := List.of_mem_filter he
      simpa [hpSb] using this
  have hsort : List.insertionSort entryGE values1
      = List.insertionSort entryGE (values1.filter pSb)
        ++ List.insertionSort entryGE (values1.filter (fun x => !(pSb x))) := by
    conv =>
      lhs
      rw [hsplit]
    exact insertionSort_append _ _ hcross
  refine ⟨(List.insertionSort entryGE (values1.filter (fun x => !(pSb x)))).take
    (top_k - (List.insertionSort entryGE (values1.filter pSb)).length), ?_⟩
  rw [searchPost_def, searchPost_def, ← hhits, ← hitt, ← hv1, hv2, hsort,
    List.take_append_eq_append_take]

/-- C3: for a fixed index (whose tool names determine their metadata, per
the data model's name uniqueness), fixed query vector, `top_k` and
category filter, raising the threshold from `T1` to `T2 > T1` yields a
result list that is a subset (in fact a prefix) of the `T1` result list;
in particular the result count never increases. -/
theorem search_threshold_monotone
    {embed : String → Except Unit (List ℚ)} {idx : FAISSToolIndex} {query : String}
    {top_k : ℕ} {T1 T2 : ℚ} {category : Option String} {res1 res2 : List SearchEntry}
    (hmeta : ∀ t1 ∈ idx.index_to_tool, ∀ t2 ∈ idx.index_to_tool, t1.name = t2.name → t1 = t2)
    (hT : T1 < T2)
    (h1 : idx.search embed query top_k T1 category = .ok res1)
    (h2 : idx.search embed query top_k T2 category = .ok res2) :
    (∀ e ∈ res2, e ∈ res1) ∧ res2.length ≤ res1.length := by
  rcases search_ok_cases h1 with ⟨hb1, hres1⟩ | ⟨hb1, qv1, hqv1, hk1, hres1⟩
  · rcases search_ok_cases h2 with ⟨_, hres2⟩ | ⟨hb2, _, _, _, _⟩
    · subst hres1
      subst hres2
      exact ⟨fun e he => he, le_refl _⟩
    · rw [hb1] at hb2
      cases hb2
  · rcases search_ok_cases h2 with ⟨hb2, _⟩ | ⟨_, qv2, hqv2, hk2, hres2⟩
    · rw [hb1] at hb2
      cases hb2
    · rw [hqv1] at hqv2
      cases hqv2
      subst hres1
      subst hres2
      obtain ⟨rest, hrest⟩ :=
        @searchPost_threshold_append idx qv1 top_k T1 T2 (normCat category)
          hmeta (le_of_lt hT)
      rw [hrest]
      constructor
      · intro e he
        exact List.mem_append.mpr (Or.inl he)
      · rw [List.length_append]
        exact Nat.le_add_right _ _

/-- Witness for `search_threshold_monotone`: on the two-tool index, the
threshold `1/10` returns both tools while the threshold `2` returns
nothing, and the latter result is a subset of (and no longer than) the
former. -/
theorem search_threshold_monotone_witness :
    (∀ e ∈ ([] : List SearchEntry), e ∈ [(⟨toolA, 1⟩ : SearchEntry), ⟨toolB, 1⟩])
      ∧ ([] : List SearchEntry).length
          ≤ [(⟨toolA, 1⟩ : SearchEntry), ⟨toolB, 1⟩].length := by
  have h1 : FAISSToolIndex.search embedOne idxBuiltAB "q" 5 (mkRat 1 10) none
      = .ok [⟨toolA, 1⟩, ⟨toolB, 1⟩] := by
    with_unfolding_all decide
  have h2 : FAISSToolIndex.search embedOne idxBuiltAB "q" 5 2 none = .ok [] := by
    with_unfolding_all decide
  exact search_threshold_monotone (by decide) (by with_unfolding_all decide) h1 h2

end TMP
